import Mathlib

/-!
Verification of the genesis phylogenetics toolkit against its specification.

Each C++ component referenced by the claims is shallowly embedded as an
executable Lean definition, translated from the source files:

* `src/src/utils/lexer.hh` — token types, the character classification table,
  `Lexer::GetCharType`, `Lexer::at`.
* `src/test/src/tree/tree_iterator.cpp` — the Euler tour expectations.
* `src/lib/placement/io/newick_processor.hpp` — the placement Newick mixin.
* `src/lib/tree/phyloxml_processor.tpp` — the Phyloxml writer.
* `src/src/placement/jplace_parser.cc` — `JplaceParser::ProcessDocument`.
* `src/lib/sequence/io/fasta_parser.cpp` — `parse_fasta_sequence`.

C++ exceptions are modelled with `Except`, mutation by explicit state passing,
`int` arithmetic with `Int` plus explicit range checks, and the file system as
an association list from paths to contents.
-/

namespace Genesis

/-! ## Lexer token model (from `src/src/utils/lexer.hh`) -/

/-- The token-type enumeration of the lexer (`enum LexerTokenType`). -/
inductive LexerTokenType where
  | kError
  | kUnknown
  | kWhite
  | kComment
  | kSymbol
  | kNumber
  | kString
  | kBracket
  | kOperator
  | kTag
  | kEOF
deriving DecidableEq, Repr

open LexerTokenType

/-- A lexer token (`struct LexerToken`): type, line, column and string value. -/
structure LexerToken where
  type : LexerTokenType
  line : Nat
  column : Nat
  value : String
deriving DecidableEq, Repr

/-- The character classification table `Lexer::start_char_table_`,
entry by entry as written in the source (indices 0 to 127). -/
def startCharTable : List LexerTokenType :=
  [ kError,   kError,   kError,   kError,
    kError,   kError,   kError,   kError,
    kError,   kWhite,   kWhite,   kWhite,
    kWhite,   kWhite,   kError,   kError,
    kError,   kError,   kError,   kError,
    kError,   kError,   kError,   kError,
    kError,   kError,   kError,   kError,
    kError,   kError,   kError,   kError,
    kWhite,   kUnknown, kUnknown, kUnknown,
    kUnknown, kUnknown, kUnknown, kUnknown,
    kUnknown, kUnknown, kUnknown, kUnknown,
    kUnknown, kUnknown, kUnknown, kUnknown,
    kNumber,  kNumber,  kNumber,  kNumber,
    kNumber,  kNumber,  kNumber,  kNumber,
    kNumber,  kNumber,  kUnknown, kUnknown,
    kUnknown, kUnknown, kUnknown, kUnknown,
    kUnknown, kSymbol,  kSymbol,  kSymbol,
    kSymbol,  kSymbol,  kSymbol,  kSymbol,
    kSymbol,  kSymbol,  kSymbol,  kSymbol,
    kSymbol,  kSymbol,  kSymbol,  kSymbol,
    kSymbol,  kSymbol,  kSymbol,  kSymbol,
    kSymbol,  kSymbol,  kSymbol,  kSymbol,
    kSymbol,  kSymbol,  kSymbol,  kUnknown,
    kUnknown, kUnknown, kUnknown, kUnknown,
    kUnknown, kSymbol,  kSymbol,  kSymbol,
    kSymbol,  kSymbol,  kSymbol,  kSymbol,
    kSymbol,  kSymbol,  kSymbol,  kSymbol,
    kSymbol,  kSymbol,  kSymbol,  kSymbol,
    kSymbol,  kSymbol,  kSymbol,  kSymbol,
    kSymbol,  kSymbol,  kSymbol,  kSymbol,
    kSymbol,  kSymbol,  kSymbol,  kUnknown,
    kUnknown, kUnknown, kUnknown, kError ]

/-- A C++ `char` is signed: a byte value `b` (0 to 255) is reinterpreted as the
integer `b` when `b < 128` and as `b - 256` (negative) otherwise. -/
def charOfByte (b : Nat) : Int :=
  if b < 128 then (b : Int) else (b : Int) - 256

/-- `Lexer::GetCharType(char c)`: negative chars yield `kError`, otherwise the
char indexes the start-char table. -/
def getCharType (c : Int) : LexerTokenType :=
  if c < 0 then kError else startCharTable.getD c.toNat kError

/-- `GetCharType` applied to a raw byte of the input text. -/
def byteCharType (b : Nat) : LexerTokenType :=
  getCharType (charOfByte b)

/-- `Lexer::at(index)`: the token list is the lexer state `tokens_`; an
out-of-bounds index returns a `kEOF` token with line 0, column 0 and empty
value instead of accessing the vector out of bounds. -/
def lexerAt (tokens : List LexerToken) (index : Nat) : LexerToken :=
  if h : index < tokens.length then
    tokens.get ⟨index, h⟩
  else
    ⟨kEOF, 0, 0, ""⟩

/-! ## Rooted trees

The in-memory tree of genesis is a link/node/edge graph; for the traversal and
writer claims we embed it as a rooted tree with named nodes and ordered
children, which is the structure the Newick reader produces. A mutual
tree/forest pair keeps all recursion structural. -/

mutual
/-- A rooted tree node: display name and ordered children. -/
inductive RTree where
  | node (name : String) (children : Forest)
deriving DecidableEq, Repr

/-- An ordered forest of subtrees. -/
inductive Forest where
  | nil
  | cons (head : RTree) (tail : Forest)
deriving DecidableEq, Repr
end

/-- The display name of a tree's root node. -/
def RTree.name : RTree → String
  | .node n _ => n

/-- The children of a tree's root node. -/
def RTree.children : RTree → Forest
  | .node _ cs => cs

mutual
/-- Number of nodes of a tree. -/
def RTree.size : RTree → Nat
  | .node _ cs => 1 + cs.sizeF
/-- Number of nodes of a forest. -/
def Forest.sizeF : Forest → Nat
  | .nil => 0
  | .cons t f => t.size + f.sizeF
end

/-- Number of trees in a forest (number of children of a node). -/
def Forest.len : Forest → Nat
  | .nil => 0
  | .cons _ f => 1 + f.len

/-- The `i`-th tree of a forest. -/
def Forest.get? : Forest → Nat → Option RTree
  | .nil, _ => none
  | .cons t _, 0 => some t
  | .cons _ f, n + 1 => f.get? n

/-- The subtree reached from `t` by following the child indices in `p`
(the empty path denotes the root). -/
def childAt : RTree → List Nat → Option RTree
  | t, [] => some t
  | .node _ cs, i :: p =>
    match cs.get? i with
    | some c => childAt c p
    | none => none

/-- The display name of the node at path `p`. -/
def nameAt (T : RTree) (p : List Nat) : String :=
  match childAt T p with
  | some (.node n _) => n
  | none => ""

/-! ## Euler tour (claim C1)

Modelled from the spec: the Euler tour iterator of the tree
(`begin_eulertour` / `end_eulertour`, exercised by
`src/test/src/tree/tree_iterator.cpp` but not itself under `src/`) holds a
current link and on each increment moves to the next link of the outer link
(`link = link->outer()->next()`), stopping when it reaches the start link
again; each step records the node the current link belongs to.

In the link/node/edge structure every non-root node `v` (path `p ≠ []`)
contributes two half-edges for the edge to its parent: `Lnk.up p`, the link
belonging to `v` that points toward the parent (the primary link of `v`), and
`Lnk.down p`, the link belonging to the parent that points toward `v`. The
links around a node are ordered primary link first, then the links to the
children in order; `next` follows that circular order and `outer` swaps
`up p` with `down p`. -/

/-- A half-edge of the edge between the node at the nonempty path `p` and its
parent: `up p` belongs to the node at `p`, `down p` to its parent. -/
inductive Lnk where
  | up (p : List Nat)
  | down (p : List Nat)
deriving DecidableEq, Repr

/-- Whether the node at path `p` has at least one child. -/
def hasKids (T : RTree) (p : List Nat) : Bool :=
  match childAt T p with
  | some (.node _ (.cons _ _)) => true
  | _ => false

/-- Modelled from the spec: one iterator increment,
`link = link->outer()->next()`. From `down p` the outer link is `up p`, whose
next link around the node at `p` is its first child link (or `up p` again for
a leaf). From `up p` the outer link is `down p`, whose next link around the
parent is the link down to the following sibling, or past the last sibling the
parent's primary link `up q` (for the root, which has no primary link, the
order wraps to the first child link `down [0]`). -/
def step (T : RTree) : Lnk → Lnk
  | .down p => if hasKids T p then .down (p ++ [0]) else .up p
  | .up p =>
    let q := p.dropLast
    let j := p.getLastD 0
    if (childAt T (q ++ [j + 1])).isSome then .down (q ++ [j + 1])
    else if q = [] then .down [0]
    else .up q

/-- The remaining steps of the tour: emit the current link and continue until
the start link is reached again (the iterator's end condition). -/
def goTour (T : RTree) (start : Lnk) : Lnk → Nat → List Lnk
  | _, 0 => []
  | x, fuel + 1 => if x = start then [] else x :: goTour T start (step T x) fuel

/-- The full link sequence of the Euler tour from a start link. -/
def tourLinks (T : RTree) (start : Lnk) (fuel : Nat) : List Lnk :=
  start :: goTour T start (step T start) fuel

/-- The node a link belongs to: `up p` belongs to the node at `p`, `down p`
to its parent. -/
def linkNode : Lnk → List Nat
  | .up p => p
  | .down p => p.dropLast

/-- Modelled from the spec: the primary link of a node, where the Euler tour
iterator starts. For a non-root node it is its link toward the parent; for
the root it is its first link, the one down to its first child. -/
def startLink : List Nat → Lnk
  | [] => .down [0]
  | p => .up p

/-- The Euler tour of `T` started at the node with path `p`, as the list of
names of the visited nodes (`it.node()->name` per step, as in the test). -/
def eulertour (T : RTree) (p : List Nat) : List String :=
  (tourLinks T (startLink p) (2 * T.size)).map (fun l => nameAt T (linkNode l))

mutual
/-- The segment of the Euler tour cycle contributed by the subtree rooted at
the non-root node with path `p`: enter through `down p`, tour the children,
leave through `up p`. -/
def eulerSeg (p : List Nat) : RTree → List Lnk
  | .node _ cs => .down p :: (eulerSegF p 0 cs ++ [.up p])
/-- The concatenated segments of the children `cs` of the node at path `p`,
the first child having index `i`. -/
def eulerSegF (p : List Nat) (i : Nat) : Forest → List Lnk
  | .nil => []
  | .cons c cs => eulerSeg (p ++ [i]) c ++ eulerSegF p (i + 1) cs
end

/-- The full Euler tour cycle of the tree: the segments of the root's
children; following `step` from any of its links cycles through all of it. -/
def eulerCycle : RTree → List Lnk
  | .node _ cs => eulerSegF [] 0 cs

/-- The path stored in a link. -/
def lnkPath : Lnk → List Nat
  | .up p => p
  | .down p => p

/-- The link the Euler tour moves to after leaving a subtree whose root is a
child of the node at path `p`: the primary link `up p` of that node, except
at the root, where the circular order wraps to the first child link. -/
def closeLink (p : List Nat) : Lnk :=
  if p = [] then .down [0] else .up p

/-- The tree parsed from the Newick text `((B,(D,E)C)A,F,(H,I)G)R;` used by
the repository's Euler tour test (the Newick reader is not under `src/`, so
the parse result is written out directly). -/
def exampleTree : RTree :=
  .node "R" (.cons
    (.node "A" (.cons (.node "B" .nil)
      (.cons (.node "C" (.cons (.node "D" .nil) (.cons (.node "E" .nil) .nil)))
        .nil)))
    (.cons (.node "F" .nil)
      (.cons (.node "G" (.cons (.node "H" .nil) (.cons (.node "I" .nil) .nil)))
        .nil)))

/-! ## `std::stoi` and `std::to_string` on `int`

Used by the placement Newick mixin. C++ `int` is 32 bits; `std::stoi` skips
leading whitespace, accepts one optional sign, reads a maximal digit run
(ignoring anything after it), throws `std::invalid_argument` when there is no
digit and `std::out_of_range` when the value does not fit in `int`. -/

/-- Failure modes of `std::stoi`. -/
inductive StoiErr where
  | invalidArgument
  | outOfRange
deriving DecidableEq, Repr

/-- Smallest C++ `int` value. -/
def intMin : Int := -(2 ^ 31)

/-- Largest C++ `int` value. -/
def intMax : Int := 2 ^ 31 - 1

/-- C `isspace` for the default locale. -/
def isSpaceChar (c : Char) : Bool :=
  c.toNat = 32 ∨ (9 ≤ c.toNat ∧ c.toNat ≤ 13)

/-- C `isdigit`. -/
def isDigitChar (c : Char) : Bool :=
  48 ≤ c.toNat ∧ c.toNat ≤ 57

/-- The numeric value of a digit run, most significant digit first. -/
def digitsVal (cs : List Char) : Nat :=
  cs.foldl (fun a c => a * 10 + (c.toNat - 48)) 0

/-- Split an optional leading sign off the character list: whether the value
is negated, and the remaining characters. -/
def stoiSign (cs : List Char) : Bool × List Char :=
  match cs with
  | c :: rest =>
    if c = '-' then (true, rest) else if c = '+' then (false, rest) else (false, cs)
  | [] => (false, cs)

/-- `std::stoi` on a list of characters. -/
def stoiCore (cs : List Char) : Except StoiErr Int :=
  let signDrop := stoiSign (cs.dropWhile isSpaceChar)
  let digits := (signDrop.2).takeWhile isDigitChar
  if digits.isEmpty then .error .invalidArgument
  else
    let v : Int := if signDrop.1 then -(digitsVal digits : Int) else (digitsVal digits : Int)
    if v < intMin ∨ intMax < v then .error .outOfRange else .ok v

/-- `std::stoi` on a string. -/
def stoi (s : String) : Except StoiErr Int :=
  stoiCore s.data

/-- The decimal digits of `n`, most significant first; the fuel argument makes
the recursion structural and is always called with fuel above `n`. -/
def natDigitsAux : Nat → Nat → List Char
  | 0, _ => []
  | fuel + 1, m =>
    if m < 10 then [Char.ofNat (48 + m)]
    else natDigitsAux fuel (m / 10) ++ [Char.ofNat (48 + m % 10)]

/-- The decimal digit string of a natural number. -/
def natDigits (m : Nat) : List Char :=
  natDigitsAux (m + 1) m

/-- `std::to_string` on `int`: a minus sign for negative values followed by
the decimal digits of the absolute value. -/
def intToString (n : Int) : String :=
  if n < 0 then ⟨'-' :: natDigits n.natAbs⟩ else ⟨natDigits n.natAbs⟩

/-- `std::to_string` on an unsigned count. -/
def natToString (n : Nat) : String :=
  ⟨natDigits n⟩

/-! ## Newick broker elements and the placement mixin
(from `src/lib/placement/io/newick_processor.hpp`) -/

/-- Modelled from the spec: a `NewickBrokerElement` (the broker class itself
is not under `src/`) carries a name, a branch length, a depth, and ordered
lists of tag and comment strings. -/
structure NewickBrokerElement where
  name : String := ""
  branch_length : Rat := 0
  depth : Nat := 0
  tags : List String := []
  comments : List String := []
deriving DecidableEq, Repr

/-- The edge payload of a placement tree edge: branch length, the placement
`edge_num`, and the number of placements on the edge (`placement_count()`). -/
structure PlacementEdgeData where
  branch_length : Rat := 0
  edge_num : Int := 0
  placement_count : Nat := 0
deriving DecidableEq, Repr

/-- Failure modes of `PlacementTreeNewickMixin::element_to_edge`: the two
`std::invalid_argument` exceptions thrown directly, or one escaping from
`std::stoi`. -/
inductive ElemToEdgeErr where
  | invalidArgument (msg : String)
  | stoiFail (e : StoiErr)
deriving DecidableEq, Repr

/-- The exception message for an element with no tag, exactly as built by the
source (curly braces written with escapes). -/
def noTagMsg (name : String) : String :=
  "Edge at node '" ++ name ++ "' does not contain a tag value like '\x7b42\x7d'" ++
    " for the placement edge_num of this edge."

/-- The exception message for an element with more than one tag, exactly as
built by the source. -/
def multiTagMsg (name : String) : String :=
  "Edge at node '" ++ name ++ "' contains more than one tag value like " ++
    "'\x7bxyz\x7d'. Expecting only one for the placement edge_num of this edge."

/-- `PlacementTreeNewickMixin::element_to_edge`. The base-class call is
modelled from the spec (the default mixin handles the generic branch length).
Then `edge_num` is set to `-1`, the element must carry exactly one tag, and
`edge_num` becomes `std::stoi` of that tag. -/
def elementToEdge (element : NewickBrokerElement) (edge : PlacementEdgeData) :
    Except ElemToEdgeErr PlacementEdgeData :=
  let edge := { edge with branch_length := element.branch_length }
  let edge := { edge with edge_num := -1 }
  if element.tags.length = 0 then
    .error (.invalidArgument (noTagMsg element.name))
  else if 1 < element.tags.length then
    .error (.invalidArgument (multiTagMsg element.name))
  else
    match stoi (element.tags.headD "") with
    | .ok v => .ok { edge with edge_num := v }
    | .error e => .error (.stoiFail e)

/-- `PlacementTreeNewickMixin::edge_to_element`. The base-class call is
modelled from the spec (generic branch length); with edge nums enabled the
decimal `edge_num` is appended to the element's tags, with placement counts
enabled the placement count is appended to its comments. -/
def edgeToElement (enable_edge_nums enable_placement_counts : Bool)
    (edge : PlacementEdgeData) (element : NewickBrokerElement) :
    NewickBrokerElement :=
  let element := { element with branch_length := edge.branch_length }
  let element :=
    if enable_edge_nums then
      { element with tags := element.tags ++ [intToString edge.edge_num] }
    else element
  if enable_placement_counts then
    { element with comments := element.comments ++ [natToString edge.placement_count] }
  else element

/-! ## Phyloxml writer (from `src/lib/tree/phyloxml_processor.tpp`) -/

/-- XML content: an element with tag, attributes and child content
(`XmlElement`), or character markup (`XmlMarkup`). Modelled from the usage in
the Phyloxml processor; the XML document classes are not under `src/`. -/
inductive Xml where
  | elem (tag : String) (attributes : List (String × String)) (content : List Xml)
  | markup (text : String)
deriving Repr

/-- An XML document: declaration tag and declarations, root element tag,
attributes and content. -/
structure XmlDocument where
  xml_tag : String
  declarations : List (String × String)
  tag : String
  attributes : List (String × String)
  content : List Xml
deriving Repr

/-- The `name` child element holding a node name as markup. -/
def nameElem (n : String) : Xml :=
  .elem "name" [] [.markup n]

/-- An open XML element on the writer's stack: tag, attributes, and the
content collected so far. In the C++ the stack holds pointers into the
document and children are appended through them; here closing a frame appends
the finished element to the frame below. -/
abbrev Frame := String × List (String × String) × List Xml

/-- Close the top frame, appending its element to the content of the frame
below (`stack.pop_back()`; the popped element was already wired into its
parent in the C++, which this append mirrors). -/
def popOne : List Frame → List Frame
  | (t, a, c) :: (t', a', c') :: rest => (t', a', c' ++ [Xml.elem t a c]) :: rest
  | st => st

/-- Close `k` frames. -/
def popK : Nat → List Frame → List Frame
  | 0, st => st
  | k + 1, st => popK k (popOne st)

mutual
/-- The preorder node sequence with depths, root at depth `d`: the traversal
order of `ConstIteratorPreorder` combined with `node_depth_vector()`, both
modelled from the spec (visit a node before its children, siblings in order,
depth is the distance from the root). -/
def preorder : RTree → Nat → List (String × Nat)
  | .node n cs, d => (n, d) :: preorderF cs (d + 1)
/-- Preorder of a forest at depth `d`. -/
def preorderF : Forest → Nat → List (String × Nat)
  | .nil, _ => []
  | .cons t f, d => preorder t d ++ preorderF f d
end

/-- The loop body of `PhyloxmlProcessor::to_document` over the preorder
sequence: for a node at depth `d`, close `cur_d - d + 1` frames (none when
`d = 0`), then push a fresh `clade` frame already holding the `name` child,
and continue with `cur_d = d`. -/
def runStack : List (String × Nat) → List Frame → Nat → List Frame
  | [], st, _ => st
  | (n, d) :: rest, st, cd =>
    runStack rest (("clade", [], [nameElem n]) :: popK (if d = 0 then 0 else cd + 1 - d) st) d

/-- The initial stack frame: the `phylogeny` element with `rooted="true"`. -/
def phylogenyFrame : Frame :=
  ("phylogeny", [("rooted", "true")], [])

/-- Close every frame still open when the traversal ends (in the C++ the
elements are already wired to their parents, so this is the state the
document holds at the end). -/
def finishStack (st : List Frame) : List Frame :=
  popK (st.length - 1) st

/-- The element described by a frame. -/
def frameToXml : Frame → Xml
  | (t, a, c) => .elem t a c

/-- `PhyloxmlProcessor::to_document`: the XML declaration, the `Phyloxml`
root element with its fixed namespace attributes, and one `phylogeny` element
populated by the stack run over the preorder traversal. -/
def toDocument (T : RTree) : XmlDocument :=
  { xml_tag := "xml"
    declarations := [("version", "1.0"), ("encoding", "UTF-8")]
    tag := "Phyloxml"
    attributes :=
      [("xmlns:xsi", "http://www.w3.org/2001/XMLSchema-instance"),
       ("xsi:schemaLocation",
         "http://www.Phyloxml.org http://www.Phyloxml.org/1.10/Phyloxml.xsd"),
       ("xmlns", "http://www.Phyloxml.org")]
    content := (finishStack (runStack (preorder T 0) [phylogenyFrame] 0)).map frameToXml }

mutual
/-- The clade element a tree contributes to the Phyloxml document: a `clade`
element holding the `name` child followed by the clades of the children. -/
def cladeOf : RTree → Xml
  | .node n cs => .elem "clade" [] (nameElem n :: cladesOf cs)
/-- The clade elements of a forest. -/
def cladesOf : Forest → List Xml
  | .nil => []
  | .cons t f => cladeOf t :: cladesOf f
end

mutual
/-- The frames still open after the writer has traversed a whole subtree:
one frame per node on its rightmost path (deepest first), each holding its
`name` child and the clades of its already finished children. -/
def rpFrames : RTree → List Frame
  | .node n cs => (rpSplit cs).2 ++ [("clade", [], nameElem n :: (rpSplit cs).1)]
/-- For a forest: the clades of all children but the last, and the open
frames of the last child (empty forest: no finished clades, no open frames,
so the node's own frame above holds only its name). -/
def rpSplit : Forest → List Xml × List Frame
  | .nil => ([], [])
  | .cons t .nil => ([], rpFrames t)
  | .cons t f@(.cons _ _) => ((cladeOf t :: (rpSplit f).1), (rpSplit f).2)
end

/-- Append finished child elements to the content of an open frame. -/
def appFrame : Frame → List Xml → Frame
  | (t, a, c), xs => (t, a, c ++ xs)

mutual
/-- The number of `clade` elements in an XML tree. -/
def cladeCountX : Xml → Nat
  | .markup _ => 0
  | .elem tag _ content => (if tag = "clade" then 1 else 0) + cladeCountL content
/-- The number of `clade` elements in a list of XML contents. -/
def cladeCountL : List Xml → Nat
  | [] => 0
  | x :: xs => cladeCountX x + cladeCountL xs
end

/-- Whether a content entry is a `name` element. -/
def isNameElem : Xml → Bool
  | .elem t _ _ => t = "name"
  | .markup _ => false

/-- The number of `name` child elements in a content list. -/
def namedCount (l : List Xml) : Nat :=
  (l.filter isNameElem).length

/-- Every `clade` element in the XML tree has at most one `name` child. -/
inductive CladesOk : Xml → Prop where
  | markup (s : String) : CladesOk (.markup s)
  | elem (tag : String) (attrs : List (String × String)) (content : List Xml) :
      (tag = "clade" → namedCount content ≤ 1) →
      (∀ x ∈ content, CladesOk x) → CladesOk (.elem tag attrs content)

/-! ## File output (claim C8, from `PhyloxmlProcessor::to_file`) -/

/-- The file system as an association list from paths to contents; a fresh
write shadows nothing because `to_file` never writes over an existing path. -/
abbrev FileSys := List (String × String)

/-- `file_exists`. -/
def fileExists (fn : String) (fs : FileSys) : Bool :=
  (fs.lookup fn).isSome

/-- `file_write`: store the content under the path; in this model the write
itself succeeds. -/
def fileWrite (fn content : String) (fs : FileSys) : Bool × FileSys :=
  (true, (fn, content) :: fs)

/-- Render an attribute list. -/
def renderAttrs (a : List (String × String)) : String :=
  (a.map (fun kv => " " ++ kv.1 ++ "=\"" ++ kv.2 ++ "\"")).foldl (· ++ ·) ""

mutual
/-- Modelled from the spec: a rendering of an XML element to text
(`XmlProcessor::to_string` is not under `src/`; the claims never inspect the
produced text, only that it is a function of the tree). -/
def renderXml : Xml → String
  | .elem t a c => "<" ++ t ++ renderAttrs a ++ ">" ++ renderXmlList c ++ "</" ++ t ++ ">"
  | .markup s => s
/-- Render a list of XML contents. -/
def renderXmlList : List Xml → String
  | [] => ""
  | x :: xs => renderXml x ++ renderXmlList xs
end

/-- Modelled from the spec: `XmlProcessor().to_string` on a document. -/
def renderDocument (xd : XmlDocument) : String :=
  "<?" ++ xd.xml_tag ++ renderAttrs xd.declarations ++ "?>" ++
    renderXml (.elem xd.tag xd.attributes xd.content)

/-- `PhyloxmlProcessor::to_string(tree)`. -/
def phyloxmlToString (T : RTree) : String :=
  renderDocument (toDocument T)

/-- `PhyloxmlProcessor::to_file`: refuse to overwrite an existing file (with
a warning) and return false; otherwise write the Phyloxml text and return the
result of the write. -/
def phyloxmlToFile (fn : String) (T : RTree) (fs : FileSys) : Bool × FileSys :=
  if fileExists fn fs then (false, fs)
  else fileWrite fn (phyloxmlToString T) fs

/-! ## Jplace parser (claim C6, from `src/src/placement/jplace_parser.cc`)

JSON numbers are embedded as rationals; the parser only pattern-matches on
value kinds and copies numbers around, so no floating-point rounding is
involved in the claims. -/

/-- A JSON value (`JsonValue` and its subclasses). -/
inductive JsonValue where
  | null
  | bool (b : Bool)
  | number (x : Rat)
  | string (s : String)
  | array (xs : List JsonValue)
  | object (xs : List (String × JsonValue))

/-- A JSON document: the top-level object's key/value pairs;
`JsonDocument::Get` returns the value at a key, or null. -/
abbrev JsonDocument := List (String × JsonValue)

/-- `doc.Get(key)`. -/
def docGet (doc : JsonDocument) (key : String) : Option JsonValue :=
  doc.lookup key

/-- One placement record (`Pquery::Placement`); the fields the parser can
fill, all numeric in jplace. Defaults are zero (the C++ value-initializes the
record before filling it). -/
structure PqueryPlacement where
  edge_num : Rat := 0
  likelihood : Rat := 0
  like_weight_ratio : Rat := 0
  distal_length : Rat := 0
  pendant_length : Rat := 0
  parsimony : Rat := 0
deriving DecidableEq, Repr

/-- A pquery name with multiplicity (`Pquery::Name`). -/
structure PqueryName where
  name : String
  multiplicity : Rat
deriving DecidableEq, Repr

/-- A pquery (`Pquery`): its placements and its names. -/
structure Pquery where
  placements : List PqueryPlacement := []
  names : List PqueryName := []
deriving DecidableEq, Repr

/-- The `Placements` object filled by the parser: the reference tree (held
here as the Newick text it was built from; `tree.FromNewickString` is the
external collaborator boundary), the pqueries, and the metadata map. -/
structure Placements where
  tree : Option String := none
  pqueries : List Pquery := []
  metadata : List (String × String) := []
deriving DecidableEq, Repr

/-- The field names this parser uses. -/
def knownField (f : String) : Bool :=
  f = "edge_num" ∨ f = "likelihood" ∨ f = "like_weight_ratio" ∨
    f = "distal_length" ∨ f = "pendant_length" ∨ f = "parsimony"

/-- The `fields` loop: collect the used field names in order, rejecting
non-strings and duplicates of used names (unknown names are skipped with a
warning), and track whether `edge_num` appeared. -/
def parseFields : List JsonValue → List String → Bool → Option (List String × Bool)
  | [], acc, hasE => some (acc, hasE)
  | v :: rest, acc, hasE =>
    match v with
    | .string f =>
      if knownField f then
        if acc.contains f then none
        else parseFields rest (acc ++ [f]) (hasE ∨ f = "edge_num")
      else parseFields rest acc (hasE ∨ f = "edge_num")
    | _ => none

/-- Assign one named placement field (the if/else chain of the field loop;
an unknown name leaves the record unchanged). -/
def applyField (pl : PqueryPlacement) (fname : String) (x : Rat) : PqueryPlacement :=
  if fname = "edge_num" then { pl with edge_num := x }
  else if fname = "likelihood" then { pl with likelihood := x }
  else if fname = "like_weight_ratio" then { pl with like_weight_ratio := x }
  else if fname = "distal_length" then { pl with distal_length := x }
  else if fname = "pendant_length" then { pl with pendant_length := x }
  else if fname = "parsimony" then { pl with parsimony := x }
  else pl

/-- The per-placement field loop: every value must be a number, assigned to
the like-named field. -/
def parsePlacementFields : List (String × JsonValue) → PqueryPlacement → Option PqueryPlacement
  | [], pl => some pl
  | (fname, v) :: rest, pl =>
    match v with
    | .number x => parsePlacementFields rest (applyField pl fname x)
    | _ => none

/-- The `p` array loop: every entry must be an array of the same length as
the field-name list, parsed field by field. -/
def parsePlacements (fields : List String) : List JsonValue → Option (List PqueryPlacement)
  | [] => some []
  | v :: rest =>
    match v with
    | .array arr =>
      if arr.length = fields.length then
        match parsePlacementFields (fields.zip arr) {} with
        | some pl => (parsePlacements fields rest).map (pl :: ·)
        | none => none
      else none
    | _ => none

/-- The `n` array loop: every entry must be a string; multiplicity 0. -/
def parseNArr : List JsonValue → Option (List PqueryName)
  | [] => some []
  | v :: rest =>
    match v with
    | .string nm => (parseNArr rest).map ({ name := nm, multiplicity := 0 } :: ·)
    | _ => none

/-- The `nm` array loop: every entry must be a two-element array of a string
and a number (a negative multiplicity only produces a warning). -/
def parseNmArr : List JsonValue → Option (List PqueryName)
  | [] => some []
  | v :: rest =>
    match v with
    | .array [.string nm, .number m] =>
      (parseNmArr rest).map ({ name := nm, multiplicity := m } :: ·)
    | _ => none

/-- The names of one pquery object: exactly one of `n` and `nm` must be
present (checked by the caller); the present one must be an array of the
right shape. -/
def parsePqueryNames (obj : List (String × JsonValue)) : Option (List PqueryName) :=
  if (obj.lookup "n").isSome then
    match obj.lookup "n" with
    | some (.array narr) => parseNArr narr
    | _ => none
  else
    match obj.lookup "nm" with
    | some (.array nmarr) => parseNmArr nmarr
    | _ => none

/-- The `placements` array loop. Each fully validated pquery is pushed onto
the accumulator as the C++ pushes it onto `placements.pqueries`; a failure
returns false together with the pqueries pushed so far. -/
def processPqueries (fields : List String) :
    List JsonValue → List Pquery → Bool × List Pquery
  | [], acc => (true, acc)
  | v :: rest, acc =>
    match v with
    | .object obj =>
      match obj.lookup "p" with
      | some (.array parr) =>
        match parsePlacements fields parr with
        | none => (false, acc)
        | some pls =>
          if (obj.lookup "n").isSome ∧ (obj.lookup "nm").isSome then (false, acc)
          else if ¬(obj.lookup "n").isSome ∧ ¬(obj.lookup "nm").isSome then (false, acc)
          else
            match parsePqueryNames obj with
            | none => (false, acc)
            | some names =>
              processPqueries fields rest (acc ++ [{ placements := pls, names := names }])
      | _ => (false, acc)
    | _ => (false, acc)

/-- Modelled from the spec: `JsonValue::ToString`, used only to copy metadata
values; only its behavior on strings is ever relevant here. -/
def jsonValueToString : JsonValue → String
  | .string s => s
  | _ => ""

/-- `JplaceParser::ProcessDocument`. The given `Placements` object is cleared
first; the document must have a numeric `version` (a version mismatch only
warns), a string `tree` accepted by the Newick reader (the external
collaborator, passed in as `fromNewick`), a `fields` array containing
`edge_num`, and a `placements` array of pqueries; metadata is copied last.
Every early `return false` hands back the placements state built so far. -/
def processDocument (fromNewick : String → Bool) (doc : JsonDocument)
    (_given : Placements) : Bool × Placements :=
  let pl0 : Placements := {}
  match docGet doc "version" with
  | some (.number _) =>
    (match docGet doc "tree" with
     | some (.string s) =>
       if fromNewick s then
         let pl1 := { pl0 with tree := some s }
         match docGet doc "fields" with
         | some (.array farr) =>
           (match parseFields farr [] false with
            | none => (false, pl1)
            | some (fields, hasEdgeNum) =>
              if ¬hasEdgeNum then (false, pl1)
              else
                match docGet doc "placements" with
                | some (.array parr) =>
                  (match processPqueries fields parr [] with
                   | (false, acc) => (false, { pl1 with pqueries := acc })
                   | (true, acc) =>
                     let pl2 := { pl1 with pqueries := acc }
                     match docGet doc "metadata" with
                     | some (.object mobj) =>
                       (true, { pl2 with
                         metadata := mobj.map (fun kv => (kv.1, jsonValueToString kv.2)) })
                     | _ => (true, pl2))
                | _ => (false, pl1))
         | _ => (false, pl1)
       else (false, pl0)
     | _ => (false, pl0))
  | _ => (false, pl0)

/-- A concrete jplace document: numeric version, a valid tree string, a
fields array with `edge_num`, and two pqueries, the first fully valid and the
second lacking the mandatory `p` key. -/
def jplaceExampleDoc : JsonDocument :=
  [("version", .number 3), ("tree", .string "(A,B)C;"),
   ("fields", .array [.string "edge_num"]),
   ("placements", .array
     [.object [("p", .array [.array [.number 0]]), ("n", .array [.string "x"])],
      .object []])]

/-! ## FASTA parser (claim C10, from `src/lib/sequence/io/fasta_parser.cpp`) -/

/-- `utils::CountingIstream`: the remaining input with the current line and
column (both starting at 1, the column resetting after a newline). -/
structure CIStream where
  data : List Char
  line : Nat := 1
  column : Nat := 1
deriving DecidableEq, Repr

/-- End of input. -/
def CIStream.eof (s : CIStream) : Bool :=
  s.data.isEmpty

/-- The current character (only inspected when not at end of input). -/
def CIStream.cur (s : CIStream) : Char :=
  s.data.headD (Char.ofNat 0)

/-- Advance by one character, counting lines and columns. -/
def CIStream.advance : CIStream → CIStream
  | ⟨[], l, c⟩ => ⟨[], l, c⟩
  | ⟨ch :: rest, l, c⟩ =>
    if ch = '\n' then ⟨rest, l + 1, 1⟩ else ⟨rest, l, c + 1⟩

/-- A thrown `std::runtime_error`: the message text together with the stream
position (`it.at()`) it names. -/
structure FastaError where
  msg : String
  line : Nat
  column : Nat
deriving DecidableEq, Repr

/-- A sequence object (`Sequence`): label, metadata and sites. -/
structure Sequence where
  label : String := ""
  metadata : String := ""
  sites : String := ""
deriving DecidableEq, Repr

/-- C `isgraph`: the printable characters other than space. -/
def isGraphChar (c : Char) : Bool :=
  33 ≤ c.toNat ∧ c.toNat ≤ 126

/-- C `isprint`: the printable characters including space. -/
def isPrintChar (c : Char) : Bool :=
  32 ≤ c.toNat ∧ c.toNat ≤ 126

/-- Consume characters while they satisfy `p`, maintaining line and column
counts; returns the consumed characters and the remaining stream. -/
def consumeWhileAux (p : Char → Bool) : List Char → Nat → Nat → List Char × CIStream
  | [], l, c => ([], ⟨[], l, c⟩)
  | ch :: rest, l, c =>
    if p ch then
      let r :=
        if ch = '\n' then consumeWhileAux p rest (l + 1) 1
        else consumeWhileAux p rest l (c + 1)
      (ch :: r.1, r.2)
    else ([], ⟨ch :: rest, l, c⟩)

/-- Consume a maximal run of characters satisfying `p` from a stream. -/
def consumeWhile (p : Char → Bool) (s : CIStream) : String × CIStream :=
  let r := consumeWhileAux p s.data s.line s.column
  (⟨r.1⟩, r.2)

/-- The comment-skipping loop (`while (it && *it == ';') ...`). The fuel
argument keeps the recursion structural; every iteration consumes at least
the leading `;`, so fuel above the input length never runs out. -/
def skipComments : Nat → CIStream → CIStream
  | 0, s => s
  | fuel + 1, s =>
    if ¬s.eof ∧ s.cur = ';' then skipComments fuel (consumeWhile isPrintChar s).2
    else s

/-- The error text of the repeated label-line check. -/
def msgSeqAfterLabel : String :=
  "Malformed fasta file: Expecting a sequence after the label line at "

/-- The sequence-reading loop: at each line start, consume a run of graphical
characters into the sites, require a newline, and reject empty lines; stops
at end of input or at a `>`. The fuel argument keeps the recursion
structural; every iteration consumes at least one character. -/
def sitesLoop : Nat → CIStream → String → Except FastaError (CIStream × String)
  | 0, s, acc => .ok (s, acc)
  | fuel + 1, s, acc =>
    if ¬s.eof ∧ s.cur ≠ '>' then
      let r := consumeWhile isGraphChar s
      if r.2.eof then
        .error ⟨"Malformed fasta file: Sequence does not end with '\n' ", r.2.line, r.2.column⟩
      else if r.2.cur ≠ '\n' then
        .error ⟨"Malformed fasta file: Invalid sequence symbols at ", r.2.line, r.2.column⟩
      else
        let s2 := r.2.advance
        if r.1.length = 0 then
          .error ⟨"Malformed fasta file: Empty sequence line at ", s2.line, s2.column⟩
        else sitesLoop fuel s2 (acc ++ r.1)
    else .ok (s, acc)

/-- `parse_fasta_sequence`: returns false at end of input; otherwise requires
`>`, a nonempty graphical label, optional metadata after a space, the
label-line newline (the comment loop runs before the newline is consumed and
so never fires), then the sequence lines; errors carry the stream position.
The C++ writes into the passed sequence while parsing; here the fully parsed
sequence is returned (the claims do not concern the partially written state
an exception leaves behind). -/
def parseFastaSequence (s : CIStream) (seq : Sequence) :
    Except FastaError (Bool × CIStream × Sequence) :=
  if s.eof then .ok (false, s, seq)
  else if s.cur ≠ '>' then
    .error ⟨"Malformed fasta file: Expecting '>' at beginning of sequence at ", s.line, s.column⟩
  else
    let r1 := consumeWhile isGraphChar s.advance
    if r1.1 = "" then
      .error ⟨"Malformed fasta file: Expecting label after '>' at ", r1.2.line, r1.2.column⟩
    else if r1.2.eof ∨ (r1.2.cur ≠ '\n' ∧ r1.2.cur ≠ ' ') then
      .error ⟨msgSeqAfterLabel, r1.2.line, r1.2.column⟩
    else
      let r2 := if r1.2.cur = ' ' then consumeWhile isPrintChar r1.2.advance else ("", r1.2)
      if r2.2.eof ∨ r2.2.cur ≠ '\n' then
        .error ⟨msgSeqAfterLabel, r2.2.line, r2.2.column⟩
      else
        let s4 := skipComments (r2.2.data.length + 1) r2.2
        if s4.eof ∨ s4.cur ≠ '\n' then
          .error ⟨msgSeqAfterLabel, s4.line, s4.column⟩
        else
          match sitesLoop (s4.data.length + 1) s4.advance "" with
          | .error e => .error e
          | .ok (s6, sites) =>
            if sites.length = 0 then
              .error ⟨"Malformed fasta file: Empty sequence at ", s6.line, s6.column⟩
            else .ok (true, s6, { label := r1.1, metadata := r2.1, sites := sites })

/-! # Theorems -/

/-! ## Claim C9: `Lexer::at` is total -/

/-- C9: `Lexer::at(i)` is total: for an index below the number of tokens it
returns the `i`-th token, and otherwise it returns a `kEOF` token with line 0,
column 0 and empty value, never accessing out of bounds. -/
theorem claim_C9 (tokens : List LexerToken) (index : Nat) :
    (∀ h : index < tokens.length, lexerAt tokens index = tokens.get ⟨index, h⟩) ∧
    (tokens.length ≤ index → lexerAt tokens index = ⟨kEOF, 0, 0, ""⟩) := by
  constructor
  · intro h
    simp [lexerAt, h]
  · intro h
    rw [lexerAt, dif_neg (by omega)]

/-- Witness for C9 at a concrete token list: index 0 is in bounds, index 3
out of bounds. -/
theorem claim_C9_witness :
    lexerAt [⟨kSymbol, 1, 2, "ab"⟩] 0 = ⟨kSymbol, 1, 2, "ab"⟩ ∧
    lexerAt [⟨kSymbol, 1, 2, "ab"⟩] 3 = ⟨kEOF, 0, 0, ""⟩ :=
  ⟨(claim_C9 [⟨kSymbol, 1, 2, "ab"⟩] 0).1 (by decide),
   (claim_C9 [⟨kSymbol, 1, 2, "ab"⟩] 3).2 (by decide)⟩

/-! ## Claim C7: character classification -/

/-- C7 counterexample: the bytes 195 and 169 (the UTF-8 encoding of a
non-ASCII label character) are classified `kError` by `GetCharType`, because
a C++ `char` is signed and the function maps every negative char to `kError`;
so a grammar-conforming Newick text with such a label byte is not classified
without an error token. -/
theorem claim_C7_counterexample :
    byteCharType 195 = kError ∧ byteCharType 169 = kError := by decide

/-- C7 (amended): only 7-bit ASCII is classified without error: every byte
value 128 to 255 is classified `kError`, while the printable ASCII characters
(32 to 126) are never `kError` and the whitespace characters 9 to 13 are
`kWhite`. -/
theorem claim_C7 :
    (∀ b : Nat, b < 256 → 128 ≤ b → byteCharType b = kError) ∧
    (∀ b : Nat, b < 127 → 32 ≤ b → byteCharType b ≠ kError) ∧
    (∀ b : Nat, b < 14 → 9 ≤ b → byteCharType b = kWhite) := by
  set_option maxRecDepth 4000 in
  refine ⟨?_, ?_, ?_⟩ <;> decide

/-- Witness for C7 at concrete bytes 200, 65 and 10. -/
theorem claim_C7_witness :
    byteCharType 200 = kError ∧ byteCharType 65 ≠ kError ∧ byteCharType 10 = kWhite :=
  ⟨claim_C7.1 200 (by decide) (by decide), claim_C7.2.1 65 (by decide) (by decide),
   claim_C7.2.2 10 (by decide) (by decide)⟩

/-! ## Claim C8: `PhyloxmlProcessor::to_file` does not overwrite -/

/-- C8: `to_file` returns false and leaves the file system unchanged whenever
a file already exists at the target path; otherwise it writes the Phyloxml
text of the tree to the path and returns true. -/
theorem claim_C8 (fn : String) (T : RTree) (fs : FileSys) :
    (fileExists fn fs = true → phyloxmlToFile fn T fs = (false, fs)) ∧
    (fileExists fn fs = false →
      phyloxmlToFile fn T fs = (true, (fn, phyloxmlToString T) :: fs) ∧
      ((fn, phyloxmlToString T) :: fs).lookup fn = some (phyloxmlToString T)) := by
  constructor
  · intro h
    simp [phyloxmlToFile, h]
  · intro h
    refine ⟨by simp [phyloxmlToFile, h, fileWrite], ?_⟩
    simp [List.lookup]

/-- Witness for C8: an existing file is left alone, a fresh path is written. -/
theorem claim_C8_witness :
    phyloxmlToFile "a.xml" exampleTree [("a.xml", "old")] = (false, [("a.xml", "old")]) ∧
    phyloxmlToFile "b.xml" exampleTree [] =
      (true, [("b.xml", phyloxmlToString exampleTree)]) :=
  ⟨(claim_C8 "a.xml" exampleTree [("a.xml", "old")]).1 (by decide),
   ((claim_C8 "b.xml" exampleTree []).2 (by decide)).1⟩

/-! ## `stoi` / `to_string` round trip (for claims C2 and C3) -/

/-- The code of a digit character built from a digit value. -/
theorem toNat_ofNat_digit (m : Nat) (h : m < 10) :
    (Char.ofNat (48 + m)).toNat = 48 + m := by
  interval_cases m <;> decide

/-- `natDigitsAux` with enough fuel is never empty. -/
theorem natDigitsAux_ne_nil (fuel m : Nat) (h : m < fuel) :
    natDigitsAux fuel m ≠ [] := by
  cases fuel with
  | zero => omega
  | succ f =>
    rw [natDigitsAux]
    split
    · simp
    · simp

/-- All characters produced by `natDigitsAux` are digits. -/
theorem natDigitsAux_digits (fuel : Nat) :
    ∀ m, m < fuel → ∀ c ∈ natDigitsAux fuel m, isDigitChar c = true := by
  induction fuel with
  | zero => omega
  | succ f ih =>
    intro m hm c hc
    rw [natDigitsAux] at hc
    split at hc
    · rename_i h10
      simp only [List.mem_singleton] at hc
      subst hc
      simp [isDigitChar, toNat_ofNat_digit m h10]
      omega
    · rename_i h10
      rcases List.mem_append.mp hc with h | h
      · have hdiv : m / 10 < f := by
          have h1 : m / 10 < m := Nat.div_lt_self (by omega) (by omega)
          omega
        exact ih (m / 10) hdiv c h
      · simp only [List.mem_singleton] at h
        subst h
        have hmod : m % 10 < 10 := Nat.mod_lt m (by omega)
        simp [isDigitChar, toNat_ofNat_digit _ hmod]
        omega

/-- Appending a digit multiplies the accumulated value by ten. -/
theorem digitsVal_append (cs : List Char) (c : Char) :
    digitsVal (cs ++ [c]) = digitsVal cs * 10 + (c.toNat - 48) := by
  simp [digitsVal, List.foldl_append]

/-- `digitsVal` inverts `natDigitsAux`. -/
theorem digitsVal_natDigitsAux (fuel : Nat) :
    ∀ m, m < fuel → digitsVal (natDigitsAux fuel m) = m := by
  induction fuel with
  | zero => omega
  | succ f ih =>
    intro m hm
    rw [natDigitsAux]
    split
    · rename_i h10
      simp [digitsVal, toNat_ofNat_digit m h10]
    · rename_i h10
      have hdiv : m / 10 < f := by
        have h1 : m / 10 < m := Nat.div_lt_self (by omega) (by omega)
        omega
      rw [digitsVal_append, ih (m / 10) hdiv,
        toNat_ofNat_digit _ (Nat.mod_lt m (by omega))]
      omega

/-- `digitsVal` inverts `natDigits`. -/
theorem digitsVal_natDigits (m : Nat) : digitsVal (natDigits m) = m :=
  digitsVal_natDigitsAux (m + 1) m (Nat.lt_succ_self m)

/-- A digit character is not a space. -/
theorem digit_not_space (c : Char) (h : isDigitChar c = true) :
    isSpaceChar c = false := by
  simp only [isDigitChar, Bool.decide_and, Bool.and_eq_true, decide_eq_true_eq] at h
  simp only [isSpaceChar, Bool.decide_or, decide_eq_true_eq]
  simp only [Bool.or_eq_false_iff, decide_eq_false_iff_not, Bool.decide_and,
    Bool.and_eq_false_iff, decide_eq_false_iff_not]
  omega

/-- `stoiSign` leaves a digit-headed list alone. -/
theorem stoiSign_digit (c : Char) (rest : List Char) (h : isDigitChar c = true) :
    stoiSign (c :: rest) = (false, c :: rest) := by
  have h1 : ¬(c = '-') := by
    intro he
    subst he
    exact absurd h (by decide)
  have h2 : ¬(c = '+') := by
    intro he
    subst he
    exact absurd h (by decide)
  simp [stoiSign, h1, h2]

/-- `stoiCore` on a nonempty all-digit list reads the whole list. -/
theorem stoiCore_digits (cs : List Char) (hne : cs ≠ [])
    (hdig : ∀ c ∈ cs, isDigitChar c = true)
    (hrange : (digitsVal cs : Int) ≤ intMax) :
    stoiCore cs = .ok (digitsVal cs) := by
  obtain ⟨c, rest, rfl⟩ : ∃ c rest, cs = c :: rest := by
    cases cs with
    | nil => exact absurd rfl hne
    | cons c rest => exact ⟨c, rest, rfl⟩
  have hdrop : (c :: rest).dropWhile isSpaceChar = c :: rest := by
    rw [List.dropWhile_cons, digit_not_space c (hdig c (by simp))]
    simp
  have htake : (c :: rest).takeWhile isDigitChar = c :: rest :=
    List.takeWhile_eq_self_iff.mpr hdig
  rw [stoiCore]
  simp only [hdrop, stoiSign_digit c rest (hdig c (by simp)), htake]
  rw [if_neg (by simp)]
  simp only [if_neg (by simp : ¬False), Bool.false_eq_true, ite_false]
  rw [if_neg]
  simp only [not_or, not_lt]
  constructor
  · have : (0 : Int) ≤ (digitsVal (c :: rest) : Int) := Int.natCast_nonneg _
    simp only [intMin]
    omega
  · exact hrange

/-- `stoi` inverts `std::to_string` on every value of the C++ `int` range. -/
theorem stoi_intToString (n : Int) (h1 : intMin ≤ n) (h2 : n ≤ intMax) :
    stoi (intToString n) = .ok n := by
  by_cases hn : n < 0
  · have habs : (n.natAbs : Int) = -n := by omega
    rw [intToString, if_pos hn, stoi]
    show stoiCore ('-' :: natDigits n.natAbs) = .ok n
    have hdig := natDigitsAux_digits (n.natAbs + 1) n.natAbs (Nat.lt_succ_self _)
    have hne := natDigitsAux_ne_nil (n.natAbs + 1) n.natAbs (Nat.lt_succ_self _)
    rw [stoiCore]
    have hdrop : ('-' :: natDigits n.natAbs).dropWhile isSpaceChar =
        '-' :: natDigits n.natAbs := by
      rw [List.dropWhile_cons]
      simp [isSpaceChar]
    have hsign : stoiSign ('-' :: natDigits n.natAbs) = (true, natDigits n.natAbs) := by
      simp [stoiSign]
    have htake : (natDigits n.natAbs).takeWhile isDigitChar = natDigits n.natAbs :=
      List.takeWhile_eq_self_iff.mpr hdig
    simp only [hdrop, hsign, htake]
    rw [if_neg (by simpa using hne)]
    simp only [digitsVal_natDigits, if_pos rfl, ite_true]
    rw [if_neg]
    · rw [habs]
      simp
    · simp only [not_or, not_lt]
      constructor
      · rw [habs]
        omega
      · rw [habs]
        simp only [intMax] at h2 ⊢
        omega
  · push_neg at hn
    have habs : (n.natAbs : Int) = n := by omega
    rw [intToString, if_neg (by omega), stoi]
    show stoiCore (natDigits n.natAbs) = .ok n
    have hdig : ∀ c ∈ natDigits n.natAbs, isDigitChar c = true :=
      natDigitsAux_digits (n.natAbs + 1) n.natAbs (Nat.lt_succ_self _)
    have hne : natDigits n.natAbs ≠ [] :=
      natDigitsAux_ne_nil (n.natAbs + 1) n.natAbs (Nat.lt_succ_self _)
    rw [stoiCore_digits _ hne hdig]
    · rw [digitsVal_natDigits, habs]
    · rw [digitsVal_natDigits, habs]
      exact h2

/-! ## Claim C2: tag round trip -/

/-- C2: with the edge-number behavior enabled, a broker element whose single
tag is the decimal representation of `n` parses to an edge with
`edge_num = n`, and serializing any edge with `edge_num = n` back (behavior
enabled) appends exactly that tag string again — for every value of the C++
`int` range. -/
theorem claim_C2 (n : Int) (h1 : intMin ≤ n) (h2 : n ≤ intMax)
    (element : NewickBrokerElement) (edge : PlacementEdgeData)
    (htags : element.tags = [intToString n]) :
    elementToEdge element edge =
      .ok { edge with branch_length := element.branch_length, edge_num := n } ∧
    ∀ (epc : Bool) (e : PlacementEdgeData) (el : NewickBrokerElement),
      e.edge_num = n →
      (edgeToElement true epc e el).tags = el.tags ++ [intToString n] := by
  constructor
  · rw [elementToEdge]
    simp only [htags, List.length_cons, List.length_nil]
    rw [if_neg (by omega), if_neg (by omega)]
    simp only [List.headD_cons]
    rw [stoi_intToString n h1 h2]
  · intro epc e el he
    rw [edgeToElement]
    simp only [ite_true]
    cases epc <;> simp [he]

/-- Witness for C2 at `n = 7` on a concrete element and default edge data. -/
theorem claim_C2_witness :
    elementToEdge { name := "e", tags := ["7"] } {} =
      .ok { branch_length := 0, edge_num := 7, placement_count := 0 } ∧
    (edgeToElement true false { edge_num := 7 } {}).tags = ["7"] := by
  have h := claim_C2 7 (by decide) (by decide)
    { name := "e", tags := ["7"] } {} (by decide)
  exact ⟨h.1, h.2 false { edge_num := 7 } {} rfl⟩

/-! ## Claim C3: tag cardinality errors -/

/-- C3 counterexample: for the element named `A` carrying the two tags `1`
and `2`, `element_to_edge` throws an `std::invalid_argument` whose message
contains no digit at all, so it cannot cite any line/column position (it
names the offending node instead); and for the element with the single
non-numeric tag `x` the call fails inside `std::stoi` even though the element
carries exactly one tag. -/
theorem claim_C3_counterexample :
    elementToEdge { name := "A", tags := ["1", "2"] } {} =
      .error (.invalidArgument (multiTagMsg "A")) ∧
    (multiTagMsg "A").data.all (fun c => ¬ c.isDigit) = true ∧
    elementToEdge { name := "A", tags := ["x"] } {} =
      .error (.stoiFail .invalidArgument) := by
  refine ⟨rfl, by decide, rfl⟩

/-- C3 (amended): `element_to_edge` fails with an `std::invalid_argument`
whose message names the offending node (broker elements carry no position,
so none can be cited) when the element has zero tags or more than one tag;
with exactly one tag it sets `edge_num` from `std::stoi` of that tag,
succeeding exactly when `stoi` does (a non-numeric tag makes `stoi` itself
throw). -/
theorem claim_C3 (element : NewickBrokerElement) (edge : PlacementEdgeData) :
    (element.tags = [] →
      elementToEdge element edge = .error (.invalidArgument (noTagMsg element.name))) ∧
    (1 < element.tags.length →
      elementToEdge element edge = .error (.invalidArgument (multiTagMsg element.name))) ∧
    (∀ t, element.tags = [t] →
      elementToEdge element edge =
        match stoi t with
        | .ok v => .ok { edge with branch_length := element.branch_length, edge_num := v }
        | .error e => .error (.stoiFail e)) ∧
    ((elementToEdge element edge).isOk = true ↔
      element.tags.length = 1 ∧ (stoi (element.tags.headD "")).isOk = true) := by
  refine ⟨?_, ?_, ?_, ?_⟩
  · intro h
    simp [elementToEdge, h]
  · intro h
    rw [elementToEdge, if_neg (by omega), if_pos h]
  · intro t ht
    rw [elementToEdge]
    simp only [ht, List.length_cons, List.length_nil, List.headD_cons]
    rw [if_neg (by omega), if_neg (by omega)]
  · rw [elementToEdge]
    by_cases h0 : element.tags.length = 0
    · rw [if_pos h0]
      simp [Except.isOk, Except.toBool, h0]
    · by_cases h1 : 1 < element.tags.length
      · rw [if_neg h0, if_pos h1]
        simp only [Except.isOk, Except.toBool]
        constructor
        · intro h
          exact absurd h (by simp)
        · intro ⟨ha, _⟩
          omega
      · rw [if_neg h0, if_neg h1]
        have hlen : element.tags.length = 1 := by omega
        cases hs : stoi (element.tags.headD "") with
        | ok v => simp [hs, Except.isOk, Except.toBool, hlen]
        | error e => simp [hs, Except.isOk, Except.toBool, hlen]

/-- Witness for C3: the zero-tag case on a concrete element, and both
single-tag outcomes. -/
theorem claim_C3_witness :
    elementToEdge { name := "B", tags := [] } {} =
      .error (.invalidArgument (noTagMsg "B")) ∧
    elementToEdge { name := "B", tags := ["5"] } {} =
      .ok { branch_length := 0, edge_num := 5, placement_count := 0 } := by
  constructor
  · exact (claim_C3 { name := "B", tags := [] } {}).1 rfl
  · have h := (claim_C3 { name := "B", tags := ["5"] } {}).2.2.1 "5" rfl
    rw [h]
    rfl

/-! ## Claim C6: no partially-built result on failure -/

/-- C6 counterexample: on a document whose placements array holds one fully
valid pquery followed by one lacking the mandatory `p` key,
`ProcessDocument` returns false yet the `Placements` object now holds the
first pquery and the fully parsed reference tree — partially-parsed content
handed to the caller. -/
theorem claim_C6_counterexample :
    (processDocument (fun _ => true) jplaceExampleDoc {}).1 = false ∧
    (processDocument (fun _ => true) jplaceExampleDoc {}).2.pqueries =
      [{ placements := [{ edge_num := 0 }],
         names := [{ name := "x", multiplicity := 0 }] }] ∧
    (processDocument (fun _ => true) jplaceExampleDoc {}).2.tree = some "(A,B)C;" := by
  refine ⟨rfl, rfl, rfl⟩

/-- C6 (amended): `ProcessDocument` clears the given `Placements` at entry,
so its result never depends on the passed-in object and no pre-call content
survives; but on failure it does not clear again: pqueries fully parsed
before the failing entry and the already-built tree remain (only the
metadata, copied last, is guaranteed empty on failure). -/
theorem claim_C6 (fromNewick : String → Bool) (doc : JsonDocument)
    (p q : Placements) :
    processDocument fromNewick doc p = processDocument fromNewick doc q ∧
    ((processDocument fromNewick doc p).1 = false →
      (processDocument fromNewick doc p).2.metadata = []) := by
  refine ⟨rfl, ?_⟩
  simp only [processDocument]
  repeat' split
  all_goals simp

/-- Witness for C6: on the counterexample document the failure result indeed
carries empty metadata. -/
theorem claim_C6_witness :
    (processDocument (fun _ => true) jplaceExampleDoc {}).2.metadata = [] :=
  (claim_C6 (fun _ => true) jplaceExampleDoc {} {}).2 rfl

/-! ## Claim C10: `parse_fasta_sequence` -/

/-- On a nonempty stream, `parse_fasta_sequence` either throws or succeeds
with a nonempty label and nonempty sites; it never returns false. -/
theorem parse_fasta_cases (s : CIStream) (seq : Sequence) (h : s.eof = false) :
    (∃ e, parseFastaSequence s seq = .error e) ∨
    (∃ s' lab meta sites,
      parseFastaSequence s seq = .ok (true, s', ⟨lab, meta, sites⟩) ∧
      lab ≠ "" ∧ sites ≠ "") := by
  simp only [parseFastaSequence]
  rw [if_neg (by simp [h])]
  repeat' split
  all_goals try exact .inl ⟨_, rfl⟩
  all_goals
    exact .inr ⟨_, _, _, _, rfl, by assumption, by intro hq; subst hq; simp_all⟩

/-- C10: `parse_fasta_sequence` returns false exactly when the stream is at
end of input on entry; whenever it returns true the extracted sequence has a
nonempty label and nonempty sites; any other outcome is a thrown
`std::runtime_error` carrying a stream position. -/
theorem claim_C10 (s : CIStream) (seq : Sequence) :
    ((∃ out, parseFastaSequence s seq = .ok out ∧ out.1 = false) ↔ s.data = []) ∧
    (∀ s' seq', parseFastaSequence s seq = .ok (true, s', seq') →
      seq'.label ≠ "" ∧ seq'.sites ≠ "") := by
  by_cases he : s.data = []
  · have heof : s.eof = true := by simp [CIStream.eof, he]
    have hres : parseFastaSequence s seq = .ok (false, s, seq) := by
      rw [parseFastaSequence, if_pos (by simp [heof])]
    refine ⟨?_, ?_⟩
    · constructor
      · intro _
        exact he
      · intro _
        exact ⟨(false, s, seq), hres, rfl⟩
    · intro s' seq' hok
      rw [hres] at hok
      exact absurd (Except.ok.inj hok) (by simp)
  · have heof : s.eof = false := by
      cases hd : s.data with
      | nil => exact absurd hd he
      | cons c rest => simp [CIStream.eof, hd]
    rcases parse_fasta_cases s seq heof with ⟨e, herr⟩ | ⟨s', lab, meta, sites, hok, hlab, hsites⟩
    · refine ⟨?_, ?_⟩
      · constructor
        · rintro ⟨out, hout, -⟩
          rw [herr] at hout
          exact absurd hout (by simp)
        · intro hdata
          exact absurd hdata he
      · intro s' seq' h
        rw [herr] at h
        exact absurd h (by simp)
    · refine ⟨?_, ?_⟩
      · constructor
        · rintro ⟨out, hout, hfalse⟩
          rw [hok] at hout
          have := Except.ok.inj hout
          rw [← this] at hfalse
          exact absurd hfalse (by simp)
        · intro hdata
          exact absurd hdata he
      · intro s'' seq'' h
        rw [hok] at h
        have hinj := Except.ok.inj h
        have h1 : seq'' = ⟨lab, meta, sites⟩ := by
          have := congrArg Prod.snd hinj
          exact (congrArg Prod.snd this).symm
        rw [h1]
        exact ⟨hlab, hsites⟩

/-- Witness for C10 on a concrete FASTA input with label, metadata, a
comment-free body over two lines, and on the empty stream. -/
theorem claim_C10_witness :
    (({ label := "A", metadata := "meta", sites := "ACGTTT" } : Sequence).label ≠ "" ∧
      ({ label := "A", metadata := "meta", sites := "ACGTTT" } : Sequence).sites ≠ "") ∧
    ((⟨[], 1, 1⟩ : CIStream).data = []) :=
  ⟨(claim_C10 ⟨">A meta\nACGT\nTT\n".data, 1, 1⟩ {}).2 ⟨[], 4, 1⟩
      { label := "A", metadata := "meta", sites := "ACGTTT" } rfl,
   (claim_C10 (⟨[], 1, 1⟩ : CIStream) {}).1.mp ⟨((false, ⟨[], 1, 1⟩, {}) : Bool × CIStream × Sequence), rfl, rfl⟩⟩

/-! ## Phyloxml writer: the stack run builds the recursive clade nesting
(for claims C4 and C5) -/

/-- Closing frames composes additively. -/
theorem popK_add (a b : Nat) (st : List Frame) :
    popK (a + b) st = popK b (popK a st) := by
  induction a generalizing st with
  | zero =>
    rw [Nat.zero_add, popK]
  | succ n ih =>
    have h : n + 1 + b = (n + b) + 1 := by omega
    rw [h, popK, popK, ih]

mutual
/-- Closing all open frames of a finished subtree folds its clade into the
frame below. -/
theorem rp_fold : ∀ (t : RTree) (fr : Frame) (st : List Frame),
    popK (rpFrames t).length (rpFrames t ++ fr :: st) = appFrame fr [cladeOf t] :: st
  | .node n cs, fr, st => by
    rw [rpFrames, cladeOf]
    have hlen : ((rpSplit cs).2 ++
        [(("clade", [], nameElem n :: (rpSplit cs).1) : Frame)]).length =
        (rpSplit cs).2.length + 1 := by simp
    rw [hlen, List.append_assoc, List.singleton_append]
    have h := rpSplit_fold cs [nameElem n] fr st
    rw [List.singleton_append] at h
    rw [h, List.singleton_append]
/-- Closing the open frames of a forest's last child and then the node frame
above them completes the node's clade, whatever content `cc` the node frame
already carries. -/
theorem rpSplit_fold : ∀ (cs : Forest) (cc : List Xml) (fr : Frame) (st : List Frame),
    popK ((rpSplit cs).2.length + 1)
      ((rpSplit cs).2 ++ ("clade", [], cc ++ (rpSplit cs).1) :: fr :: st) =
    appFrame fr [.elem "clade" [] (cc ++ cladesOf cs)] :: st
  | .nil, cc, fr, st => by
    rw [rpSplit, cladesOf]
    obtain ⟨ft, fa, fc⟩ := fr
    simp [popK, popOne, appFrame]
  | .cons t .nil, cc, fr, st => by
    rw [rpSplit, cladesOf, cladesOf]
    rw [popK_add (rpFrames t).length 1]
    rw [rp_fold t ("clade", [], cc ++ []) (fr :: st)]
    obtain ⟨ft, fa, fc⟩ := fr
    simp [popK, popOne, appFrame]
  | .cons t (.cons t2 f2), cc, fr, st => by
    rw [rpSplit, cladesOf]
    have h := rpSplit_fold (.cons t2 f2) (cc ++ [cladeOf t]) fr st
    rw [List.append_assoc] at h
    simp only [List.singleton_append] at h
    rw [h, List.append_assoc, List.singleton_append]
end

/-- The head of a tree's preorder sequence is its root. -/
theorem preorder_eq (t : RTree) (d : Nat) :
    preorder t d = (t.name, d) :: preorderF t.children (d + 1) := by
  cases t
  rfl

/-- When the next preorder element sits at depth `d + 1`, the writer's pop
phase closes exactly the frames of the previously finished subtree, reaching
the same state as if that subtree's clade had been appended directly. -/
theorem run_norm (t : RTree) (n' : String) (d : Nat) (tail : List (String × Nat))
    (fr : Frame) (st : List Frame) :
    runStack ((n', d + 1) :: tail) (rpFrames t ++ fr :: st) (d + (rpFrames t).length) =
      runStack ((n', d + 1) :: tail) (appFrame fr [cladeOf t] :: st) d := by
  rw [runStack, runStack]
  have hno : ¬(d + 1 = 0) := by omega
  rw [if_neg hno, if_neg hno]
  have h1 : d + (rpFrames t).length + 1 - (d + 1) = (rpFrames t).length := by omega
  have h2 : d + 1 - (d + 1) = 0 := by omega
  rw [h1, h2, popK, rp_fold t fr st]

mutual
/-- Running the writer over the preorder of a subtree rooted at depth `d + 1`
pushes exactly the subtree's rightmost-path frames. -/
theorem run_tree : ∀ (t : RTree) (d : Nat) (rest : List (String × Nat))
    (fr : Frame) (st : List Frame),
    runStack (preorder t (d + 1) ++ rest) (fr :: st) d =
      runStack rest (rpFrames t ++ fr :: st) (d + (rpFrames t).length)
  | .node n cs, d, rest, fr, st => by
    rw [preorder, List.cons_append, runStack]
    rw [if_neg (by omega : ¬(d + 1 = 0))]
    have h0 : d + 1 - (d + 1) = 0 := by omega
    rw [h0, popK]
    have h := run_forest cs (d + 1) rest ("clade", [], [nameElem n]) (fr :: st)
    rw [h, rpFrames]
    have harith : d + 1 + (rpSplit cs).2.length =
        d + ((rpSplit cs).2 ++
          [(("clade", [], nameElem n :: (rpSplit cs).1) : Frame)]).length := by
      simp
      omega
    rw [harith, List.append_assoc, List.singleton_append]
    simp [appFrame]
/-- Running the writer over the preorder of a forest of siblings at depth
`d + 1`: every finished child's clade lands in the parent frame `fr`, and the
last child's rightmost-path frames stay open. -/
theorem run_forest : ∀ (cs : Forest) (d : Nat) (rest : List (String × Nat))
    (fr : Frame) (st : List Frame),
    runStack (preorderF cs (d + 1) ++ rest) (fr :: st) d =
      runStack rest ((rpSplit cs).2 ++ appFrame fr (rpSplit cs).1 :: st)
        (d + (rpSplit cs).2.length)
  | .nil, d, rest, fr, st => by
    rw [preorderF, rpSplit, List.nil_append]
    obtain ⟨ft, fa, fc⟩ := fr
    simp [appFrame]
  | .cons t .nil, d, rest, fr, st => by
    rw [preorderF, preorderF, List.append_nil, rpSplit]
    rw [run_tree t d rest fr st]
    obtain ⟨ft, fa, fc⟩ := fr
    simp [appFrame]
  | .cons t (.cons t2 f2), d, rest, fr, st => by
    rw [preorderF, rpSplit, List.append_assoc]
    rw [run_tree t d (preorderF (.cons t2 f2) (d + 1) ++ rest) fr st]
    rw [preorderF, preorder_eq t2, List.cons_append, List.cons_append]
    rw [run_norm t t2.name d
      (preorderF t2.children (d + 1 + 1) ++ preorderF f2 (d + 1) ++ rest) fr st]
    rw [← List.cons_append, ← List.cons_append, ← preorder_eq t2, ← preorderF]
    rw [run_forest (.cons t2 f2) d rest (appFrame fr [cladeOf t]) st]
    obtain ⟨ft, fa, fc⟩ := fr
    simp [appFrame]
end

/-- The phylogeny element of `to_document` holds exactly the recursive clade
of the tree. -/
theorem toDocument_content (T : RTree) :
    (toDocument T).content = [Xml.elem "phylogeny" [("rooted", "true")] [cladeOf T]] := by
  show (finishStack (runStack (preorder T 0) [phylogenyFrame] 0)).map frameToXml = _
  rw [preorder_eq T 0, runStack, if_pos rfl, popK]
  have h0 : (preorderF T.children (0 + 1)) = preorderF T.children (0 + 1) ++ [] := by simp
  rw [h0, run_forest T.children 0 [] ("clade", [], [nameElem T.name]) [phylogenyFrame]]
  rw [runStack, finishStack]
  have hlen : ((rpSplit T.children).2 ++
      appFrame ("clade", [], [nameElem T.name]) (rpSplit T.children).1 ::
        [phylogenyFrame]).length - 1 = (rpSplit T.children).2.length + 1 := by
    simp
  rw [hlen]
  have h := rpSplit_fold T.children [nameElem T.name] phylogenyFrame []
  simp only [appFrame] at h ⊢
  rw [h]
  cases T with
  | node n cs =>
    simp [frameToXml, phylogenyFrame, cladeOf, RTree.name, RTree.children]

mutual
/-- The recursive clade of a tree contains one `clade` element per node. -/
theorem cladeCount_cladeOf : ∀ t : RTree, cladeCountX (cladeOf t) = t.size
  | .node n cs => by
    rw [cladeOf, cladeCountX, RTree.size, cladeCountL]
    have h : cladeCountX (nameElem n) = 0 := by
      rw [nameElem, cladeCountX, cladeCountL, cladeCountX, cladeCountL]
      simp
    rw [h, cladeCount_cladesOf cs]
    simp
/-- The clades of a forest contain one `clade` element per node. -/
theorem cladeCount_cladesOf : ∀ cs : Forest, cladeCountL (cladesOf cs) = cs.sizeF
  | .nil => by
    rw [cladesOf, cladeCountL, Forest.sizeF]
  | .cons t f => by
    rw [cladesOf, cladeCountL, Forest.sizeF, cladeCount_cladeOf t, cladeCount_cladesOf f]
end

/-- A clade built from a tree is a `clade` element, never a `name` element. -/
theorem cladeOf_not_name (t : RTree) : isNameElem (cladeOf t) = false := by
  cases t
  rw [cladeOf, isNameElem]
  decide

/-- The clades of a forest contribute no `name` children. -/
theorem namedCount_cladesOf : ∀ cs : Forest, namedCount (cladesOf cs) = 0
  | .nil => rfl
  | .cons t f => by
    rw [cladesOf, namedCount, List.filter_cons, cladeOf_not_name t]
    exact namedCount_cladesOf f

mutual
/-- Every clade produced by `cladeOf` carries exactly its one `name` child. -/
theorem cladesOk_cladeOf : ∀ t : RTree, CladesOk (cladeOf t)
  | .node n cs => by
    rw [cladeOf]
    refine CladesOk.elem _ _ _ (fun _ => ?_) ?_
    · have h2 := namedCount_cladesOf cs
      have h3 : namedCount (nameElem n :: cladesOf cs) = 1 + namedCount (cladesOf cs) := by
        rw [namedCount, namedCount, List.filter_cons]
        have h : isNameElem (nameElem n) = true := rfl
        rw [h]
        simp
        omega
      omega
    · intro x hx
      rcases List.mem_cons.mp hx with h | h
      · subst h
        rw [nameElem]
        exact CladesOk.elem _ _ _ (fun h => absurd h (by decide)) (by
          intro y hy
          rcases List.mem_singleton.mp hy with rfl
          exact CladesOk.markup n)
      · exact cladesOk_cladesOf cs x h
/-- Every clade of a forest's clades is well formed. -/
theorem cladesOk_cladesOf : ∀ (cs : Forest), ∀ x ∈ cladesOf cs, CladesOk x
  | .nil => by
    intro x hx
    cases hx
  | .cons t f => by
    intro x hx
    rcases List.mem_cons.mp hx with h | h
    · subst h
      exact cladesOk_cladeOf t
    · exact cladesOk_cladesOf f x h
end

/-! ## Claim C4: one clade per node, nested along the tree -/

/-- C4: `to_document` emits exactly one `clade` element per tree node, and
the clade nesting mirrors the tree exactly: the phylogeny element contains
precisely the recursive clade of the root, in which the clade of every node
directly contains (after its `name` child) the clades of that node's
children in preorder sibling order — so the clade of `X` is a direct child of
the clade of `X`'s parent, and the root's clade is a direct child of the
`phylogeny` element. -/
theorem claim_C4 (T : RTree) :
    (toDocument T).content = [Xml.elem "phylogeny" [("rooted", "true")] [cladeOf T]] ∧
    (∀ n cs, T = .node n cs →
      cladeOf T = .elem "clade" [] (nameElem n :: cladesOf cs)) ∧
    cladeCountL (toDocument T).content = T.size := by
  refine ⟨toDocument_content T, ?_, ?_⟩
  · intro n cs h
    subst h
    rw [cladeOf]
  · rw [toDocument_content T]
    have h := cladeCount_cladeOf T
    simp [cladeCountL, cladeCountX, h]

/-- Witness for C4 on the repository's example tree. -/
theorem claim_C4_witness :
    cladeOf exampleTree =
      .elem "clade" [] (nameElem "R" :: cladesOf exampleTree.children) :=
  (claim_C4 exampleTree).2.1 "R" exampleTree.children rfl

/-! ## Claim C5: document shape -/

/-- C5: the Phyloxml writer produces a document with declaration
`version=1.0`, `encoding=UTF-8`, root element `Phyloxml` with the three fixed
namespace attributes, containing exactly one `phylogeny` element with
attribute `rooted="true"`, whose nested clade elements each contain at most
one `name` child element. -/
theorem claim_C5 (T : RTree) :
    (toDocument T).xml_tag = "xml" ∧
    (toDocument T).declarations = [("version", "1.0"), ("encoding", "UTF-8")] ∧
    (toDocument T).tag = "Phyloxml" ∧
    (toDocument T).attributes =
      [("xmlns:xsi", "http://www.w3.org/2001/XMLSchema-instance"),
       ("xsi:schemaLocation",
         "http://www.Phyloxml.org http://www.Phyloxml.org/1.10/Phyloxml.xsd"),
       ("xmlns", "http://www.Phyloxml.org")] ∧
    (∃ c, (toDocument T).content = [Xml.elem "phylogeny" [("rooted", "true")] c]) ∧
    ∀ x ∈ (toDocument T).content, CladesOk x := by
  refine ⟨rfl, rfl, rfl, rfl, ⟨[cladeOf T], toDocument_content T⟩, ?_⟩
  intro x hx
  rw [toDocument_content T] at hx
  rcases List.mem_singleton.mp hx with rfl
  refine CladesOk.elem _ _ _ (fun h => absurd h (by decide)) ?_
  intro y hy
  rcases List.mem_singleton.mp hy with rfl
  exact cladesOk_cladeOf T

/-- Witness for C5 on the example tree: its phylogeny element is a well
formed clade container. -/
theorem claim_C5_witness :
    CladesOk (Xml.elem "phylogeny" [("rooted", "true")] [cladeOf exampleTree]) :=
  (claim_C5 exampleTree).2.2.2.2.2
    (Xml.elem "phylogeny" [("rooted", "true")] [cladeOf exampleTree])
    (by rw [toDocument_content]; exact List.mem_singleton.mpr rfl)

/-! ## Euler tour: the link cycle (for claim C1) -/

/-- Path lookup splits over path concatenation. -/
theorem childAt_append (p : List Nat) :
    ∀ (T : RTree) (q : List Nat),
      childAt T (p ++ q) = (childAt T p).bind (fun t => childAt t q) := by
  induction p with
  | nil =>
    intro T q
    rw [List.nil_append]
    cases T
    rfl
  | cons i p' ih =>
    intro T q
    cases T with
    | node n cs =>
      rw [List.cons_append]
      cases h : cs.get? i with
      | none => simp [childAt, h]
      | some c =>
        simp [childAt, h]
        exact ih c q

/-- The child at index `j` of the node at path `p`. -/
theorem childAt_single (T : RTree) (p : List Nat) (n : String) (cs : Forest) (j : Nat)
    (h : childAt T p = some (.node n cs)) : childAt T (p ++ [j]) = cs.get? j := by
  rw [childAt_append, h]
  cases h2 : cs.get? j with
  | none => simp [childAt, h2]
  | some c => simp [childAt, h2]

/-- A forest has no tree at its own length. -/
theorem Forest.get?_len : ∀ cs : Forest, cs.get? cs.len = none
  | .nil => rfl
  | .cons t f => by
    show Forest.get? (.cons t f) (1 + f.len) = none
    rw [Nat.add_comm, Forest.get?]
    exact Forest.get?_len f

mutual
/-- A subtree's Euler segment has one entry per half-edge. -/
theorem eulerSeg_length : ∀ (t : RTree) (p : List Nat),
    (eulerSeg p t).length = 2 * t.size
  | .node n cs, p => by
    rw [eulerSeg, RTree.size]
    simp only [List.length_cons, List.length_append, List.length_nil]
    rw [eulerSegF_length cs p 0]
    omega
/-- A forest's Euler segments have one entry per half-edge. -/
theorem eulerSegF_length : ∀ (cs : Forest) (p : List Nat) (i : Nat),
    (eulerSegF p i cs).length = 2 * cs.sizeF
  | .nil, p, i => by
    rw [eulerSegF, Forest.sizeF]
    rfl
  | .cons c cs', p, i => by
    rw [eulerSegF, Forest.sizeF]
    simp only [List.length_append]
    rw [eulerSeg_length c (p ++ [i]), eulerSegF_length cs' p (i + 1)]
    omega
end

/-- A subtree's Euler segment starts with its entering link. -/
theorem eulerSeg_head (t : RTree) (p : List Nat) :
    (eulerSeg p t).head? = some (.down p) := by
  cases t
  rw [eulerSeg]
  rfl

/-- A subtree's Euler segment ends with its leaving link. -/
theorem eulerSeg_last (t : RTree) (p : List Nat) :
    (eulerSeg p t).getLast? = some (.up p) := by
  cases t with
  | node n cs =>
    rw [eulerSeg, ← List.cons_append]
    exact List.getLast?_concat _

/-- At a leaf, the entering link bounces to the leaving link. -/
theorem step_down_of_leaf (T : RTree) (p : List Nat) (n : String)
    (h : childAt T p = some (.node n .nil)) : step T (.down p) = .up p := by
  simp [step, hasKids, h]

/-- At an internal node, the entering link continues to the first child. -/
theorem step_down_of_cons (T : RTree) (p : List Nat) (n : String) (c : RTree)
    (cs' : Forest) (h : childAt T p = some (.node n (.cons c cs'))) :
    step T (.down p) = .down (p ++ [0]) := by
  simp [step, hasKids, h]

/-- Leaving a child with a following sibling entins that sibling. -/
theorem step_up_sib (T : RTree) (p : List Nat) (j : Nat) (c : RTree)
    (h : childAt T (p ++ [j + 1]) = some c) :
    step T (.up (p ++ [j])) = .down (p ++ [j + 1]) := by
  simp only [step, List.dropLast_concat, List.getLastD_concat, h]
  rfl

/-- Leaving the last child closes the parent. -/
theorem step_up_last (T : RTree) (p : List Nat) (j : Nat)
    (h : childAt T (p ++ [j + 1]) = none) :
    step T (.up (p ++ [j])) = closeLink p := by
  simp only [step, List.dropLast_concat, List.getLastD_concat, h, closeLink]
  rfl

mutual
/-- The Euler segment of a subtree at path `p` is a `step`-chain. -/
theorem chain_seg : ∀ (t : RTree) (T : RTree) (p : List Nat),
    childAt T p = some t → p ≠ [] →
    List.Chain' (fun a b => step T a = b) (eulerSeg p t)
  | .node n cs, T, p, h, hne => by
    rw [eulerSeg]
    have hch := chain_segF cs T p 0 (fun j => by
      rw [Nat.zero_add]
      exact childAt_single T p n cs j h)
    rw [closeLink, if_neg hne] at hch
    refine List.chain'_cons'.mpr ⟨?_, hch⟩
    intro y hy
    cases cs with
    | nil =>
      rw [eulerSegF, List.nil_append] at hy
      simp at hy
      subst hy
      exact step_down_of_leaf T p n h
    | cons c cs' =>
      rw [eulerSegF] at hy
      have hhead : ((eulerSeg (p ++ [0]) c ++ eulerSegF p (0 + 1) cs') ++
          [Lnk.up p]).head? = some (.down (p ++ [0])) := by
        cases c
        rw [eulerSeg]
        rfl
      rw [hhead] at hy
      simp at hy
      subst hy
      exact step_down_of_cons T p n c cs' h
/-- The Euler segments of the children of the node at path `p`, followed by
the link that closes that node, form a `step`-chain. -/
theorem chain_segF : ∀ (cs : Forest) (T : RTree) (p : List Nat) (i : Nat),
    (∀ j, childAt T (p ++ [i + j]) = cs.get? j) →
    List.Chain' (fun a b => step T a = b) (eulerSegF p i cs ++ [closeLink p])
  | .nil, T, p, i, _ => by
    rw [eulerSegF, List.nil_append]
    exact List.chain'_singleton _
  | .cons c cs', T, p, i, H => by
    rw [eulerSegF, List.append_assoc]
    refine List.chain'_append.mpr ⟨?_, ?_, ?_⟩
    · refine chain_seg c T (p ++ [i]) ?_ (by simp)
      have h0 := H 0
      rw [Nat.add_zero] at h0
      rw [h0]
      rfl
    · refine chain_segF cs' T p (i + 1) ?_
      intro j
      have hj := H (j + 1)
      rw [show i + (j + 1) = i + 1 + j from by omega] at hj
      rw [hj]
      rfl
    · intro x hx y hy
      rw [eulerSeg_last c (p ++ [i])] at hx
      simp at hx
      subst hx
      cases cs' with
      | nil =>
        rw [eulerSegF, List.nil_append] at hy
        simp at hy
        subst hy
        refine step_up_last T p i ?_
        have h1 := H 1
        rw [h1]
        rfl
      | cons c2 cs2 =>
        rw [eulerSegF] at hy
        have hhead : ((eulerSeg (p ++ [i + 1]) c2 ++ eulerSegF p (i + 1 + 1) cs2) ++
            [closeLink p]).head? = some (.down (p ++ [i + 1])) := by
          cases c2
          rw [eulerSeg]
          rfl
        rw [hhead] at hy
        simp at hy
        subst hy
        refine step_up_sib T p i c2 ?_
        have h1 := H 1
        rw [h1]
        rfl
end

mutual
/-- Every link of a subtree's segment lives at or below the subtree's path. -/
theorem seg_path : ∀ (t : RTree) (p : List Nat) (l : Lnk),
    l ∈ eulerSeg p t → ∃ s, lnkPath l = p ++ s
  | .node n cs, p, l, hl => by
    rw [eulerSeg] at hl
    rcases List.mem_cons.mp hl with h | h
    · subst h
      exact ⟨[], by simp [lnkPath]⟩
    · rcases List.mem_append.mp h with h2 | h2
      · obtain ⟨j, s, _, hp⟩ := segF_path cs p 0 l h2
        exact ⟨j :: s, hp⟩
      · simp at h2
        subst h2
        exact ⟨[], by simp [lnkPath]⟩
/-- Every link of a forest's segments lives below one of its trees, whose
index is at least the forest's starting index. -/
theorem segF_path : ∀ (cs : Forest) (p : List Nat) (i : Nat) (l : Lnk),
    l ∈ eulerSegF p i cs → ∃ j s, i ≤ j ∧ lnkPath l = p ++ j :: s
  | .nil, p, i, l, hl => by
    rw [eulerSegF] at hl
    simp at hl
  | .cons c cs', p, i, l, hl => by
    rw [eulerSegF] at hl
    rcases List.mem_append.mp hl with h | h
    · obtain ⟨s, hp⟩ := seg_path c (p ++ [i]) l h
      refine ⟨i, s, le_refl i, ?_⟩
      rw [hp, List.append_assoc]
      rfl
    · obtain ⟨j, s, hij, hp⟩ := segF_path cs' p (i + 1) l h
      exact ⟨j, s, by omega, hp⟩
end

mutual
/-- A subtree's Euler segment has no repeated link. -/
theorem seg_nodup : ∀ (t : RTree) (p : List Nat), (eulerSeg p t).Nodup
  | .node n cs, p => by
    rw [eulerSeg, List.nodup_cons]
    constructor
    · intro hmem
      rcases List.mem_append.mp hmem with h | h
      · obtain ⟨j, s, _, hp⟩ := segF_path cs p 0 _ h
        rw [lnkPath] at hp
        have hlen := congrArg List.length hp
        simp at hlen
      · simp at h
    · rw [List.nodup_append]
      refine ⟨segF_nodup cs p 0, List.nodup_singleton _, ?_⟩
      intro a ha hb
      simp only [List.mem_singleton] at hb
      subst hb
      obtain ⟨j, s, _, hp⟩ := segF_path cs p 0 _ ha
      rw [lnkPath] at hp
      have hlen := congrArg List.length hp
      simp at hlen
/-- A forest's Euler segments have no repeated link: sibling segments are
disjoint because their links live below distinct child indices. -/
theorem segF_nodup : ∀ (cs : Forest) (p : List Nat) (i : Nat),
    (eulerSegF p i cs).Nodup
  | .nil, _, _ => by
    rw [eulerSegF]
    exact List.nodup_nil
  | .cons c cs', p, i => by
    rw [eulerSegF, List.nodup_append]
    refine ⟨seg_nodup c (p ++ [i]), segF_nodup cs' p (i + 1), ?_⟩
    intro a ha hb
    obtain ⟨s, hp1⟩ := seg_path c (p ++ [i]) a ha
    obtain ⟨j, s', hij, hp2⟩ := segF_path cs' p (i + 1) a hb
    rw [hp1, List.append_assoc] at hp2
    have h3 : ([i] ++ s : List Nat) = j :: s' := List.append_cancel_left hp2
    rw [List.singleton_append] at h3
    have : i = j := (List.cons.injEq _ _ _ _ ▸ h3).1
    omega
end

/-- A node's leaving link belongs to its own segment. -/
theorem up_mem_seg (t : RTree) (p : List Nat) : Lnk.up p ∈ eulerSeg p t := by
  cases t
  rw [eulerSeg]
  simp

/-- The segment of the `j`-th tree of a forest is contained in the forest's
segments. -/
theorem seg_sub_segF : ∀ (cs : Forest) (i j : Nat) (c : RTree) (p : List Nat),
    cs.get? j = some c → ∀ l ∈ eulerSeg (p ++ [i + j]) c, l ∈ eulerSegF p i cs
  | .nil, _, j, _, _, h => by
    rw [Forest.get?] at h
    cases h
  | .cons c0 cs', i, 0, c, p, h => by
    rw [Forest.get?] at h
    injection h with h
    subst h
    intro l hl
    rw [Nat.add_zero] at hl
    rw [eulerSegF]
    exact List.mem_append_left _ hl
  | .cons c0 cs', i, j + 1, c, p, h => by
    rw [Forest.get?] at h
    intro l hl
    rw [eulerSegF]
    refine List.mem_append_right _ ?_
    refine seg_sub_segF cs' (i + 1) j c p h l ?_
    rw [show i + 1 + j = i + (j + 1) from by omega]
    exact hl

/-- The leaving link of every strict descendant of the node at path `p`
appears in that node's segment. -/
theorem up_mem_seg_sub : ∀ (r : List Nat) (t : RTree) (p : List Nat) (t' : RTree),
    childAt t r = some t' → r ≠ [] → Lnk.up (p ++ r) ∈ eulerSeg p t
  | [], _, _, _, _, hne => absurd rfl hne
  | j :: r', .node n cs, p, t', h, _ => by
    have hsplit : childAt (RTree.node n cs) (j :: r') =
        match cs.get? j with
        | some c => childAt c r'
        | none => none := rfl
    rw [hsplit] at h
    cases hg : cs.get? j with
    | none =>
      rw [hg] at h
      cases h
    | some c =>
      rw [hg] at h
      have hseg : Lnk.up (p ++ j :: r') ∈ eulerSeg (p ++ [0 + j]) c := by
        rw [Nat.zero_add]
        by_cases hr : r' = []
        · subst hr
          have := up_mem_seg c (p ++ [j])
          simpa using this
        · have hmem := up_mem_seg_sub r' c (p ++ [j]) t' h hr
          rw [List.append_assoc, List.singleton_append] at hmem
          exact hmem
      have hF := seg_sub_segF cs 0 j c p hg _ hseg
      rw [eulerSeg]
      exact List.mem_cons_of_mem _ (List.mem_append_left _ hF)

/-- The primary link of every non-root node appears in the Euler cycle. -/
theorem up_mem_cycle (T : RTree) (q : List Nat) (t' : RTree)
    (h : childAt T q = some t') (hne : q ≠ []) : Lnk.up q ∈ eulerCycle T := by
  obtain ⟨n, cs⟩ := T
  cases q with
  | nil => exact absurd rfl hne
  | cons j q' =>
    have hsplit : childAt (RTree.node n cs) (j :: q') =
        match cs.get? j with
        | some c => childAt c q'
        | none => none := rfl
    rw [hsplit] at h
    cases hg : cs.get? j with
    | none =>
      rw [hg] at h
      cases h
    | some c =>
      rw [hg] at h
      rw [eulerCycle]
      have hseg : Lnk.up (([] : List Nat) ++ j :: q') ∈ eulerSeg ([] ++ [0 + j]) c := by
        rw [Nat.zero_add]
        by_cases hq : q' = []
        · subst hq
          have := up_mem_seg c [j]
          simpa using this
        · have hmem := up_mem_seg_sub q' c [j] t' h hq
          simpa using hmem
      have hF := seg_sub_segF cs 0 j c [] hg _ hseg
      simpa using hF

/-- The Euler cycle of a tree with children starts with the link down to the
first child. -/
theorem cycle_head (n : String) (c : RTree) (cs' : Forest) :
    (eulerCycle (.node n (.cons c cs'))).head? = some (.down [0]) := by
  rw [eulerCycle, eulerSegF]
  cases c
  rw [eulerSeg]
  rfl

/-- The Euler cycle is a `step`-chain that wraps back to its head. -/
theorem chain_cycle (n : String) (cs : Forest) :
    List.Chain' (fun a b => step (RTree.node n cs) a = b)
      (eulerCycle (.node n cs) ++ [.down [0]]) := by
  rw [eulerCycle]
  have h := chain_segF cs (.node n cs) [] 0 (fun j => by
    rw [Nat.zero_add]
    exact childAt_single _ [] n cs j rfl)
  rw [closeLink, if_pos rfl] at h
  exact h

/-- The Euler cycle has no repeated link. -/
theorem cycle_nodup (n : String) (cs : Forest) :
    (eulerCycle (.node n cs)).Nodup := by
  rw [eulerCycle]
  exact segF_nodup cs [] 0

/-- The Euler cycle has one entry per half-edge. -/
theorem cycle_length (n : String) (cs : Forest) :
    (eulerCycle (.node n cs)).length = 2 * cs.sizeF := by
  rw [eulerCycle]
  exact eulerSegF_length cs [] 0

/-- The iterator stops as soon as it returns to the start link. -/
theorem go_self (T : RTree) (start : Lnk) (fuel : Nat) :
    goTour T start start fuel = [] := by
  cases fuel with
  | zero => rfl
  | succ f => rw [goTour, if_pos rfl]

/-- The iterator emits exactly a `step`-path that leads back to the start
link without passing through it, given enough fuel. -/
theorem go_emits : ∀ (rest : List Lnk) (T : RTree) (start x : Lnk) (fuel : Nat),
    rest.length < fuel → start ∉ x :: rest →
    List.Chain (fun a b => step T a = b) x (rest ++ [start]) →
    goTour T start x fuel = x :: rest
  | [], T, start, x, fuel, hf, hmem, hch => by
    cases fuel with
    | zero => omega
    | succ f =>
      have hx : ¬(x = start) := by
        intro he
        subst he
        exact hmem (List.mem_cons_self _ _)
      rw [goTour, if_neg hx]
      rw [List.nil_append] at hch
      cases hch with
      | cons h1 _ => rw [h1, go_self]
  | y :: rest', T, start, x, fuel, hf, hmem, hch => by
    cases fuel with
    | zero => omega
    | succ f =>
      have hx : ¬(x = start) := by
        intro he
        subst he
        exact hmem (List.mem_cons_self _ _)
      rw [goTour, if_neg hx]
      rw [List.cons_append] at hch
      cases hch with
      | cons h1 h2 =>
        rw [h1]
        rw [go_emits rest' T start y f (by simp at hf ⊢; omega)
          (fun hmem2 => hmem (List.mem_cons_of_mem _ hmem2)) h2]

/-- The Euler tour from any link of the cycle is the rotation of the cycle
starting at that link: the wrap-around chain, the head fact and the absence
of duplicates pin the iterator's route. -/
theorem tour_eq (T : RTree) (w start : Lnk) (pre post : List Lnk)
    (hch : List.Chain' (fun a b => step T a = b) ((pre ++ start :: post) ++ [w]))
    (hhead : (pre ++ start :: post).head? = some w)
    (hnd : (pre ++ start :: post).Nodup)
    (fuel : Nat) (hf : (pre ++ start :: post).length ≤ fuel + 1) :
    tourLinks T start fuel = start :: (post ++ pre) := by
  have hchfull : List.Chain' (fun a b => step T a = b)
      (pre ++ (start :: (post ++ [w]))) := by
    simpa [List.append_assoc] using hch
  obtain ⟨hpre, hsp, hbound1⟩ := List.chain'_append.mp hchfull
  have hsp2 : List.Chain' (fun a b => step T a = b) ((start :: post) ++ [w]) := by
    simpa using hsp
  obtain ⟨hsp3, -, hbound2⟩ := List.chain'_append.mp hsp2
  have hndsp : start ∉ pre ∧ start ∉ post := by
    rw [List.nodup_append] at hnd
    obtain ⟨_, hnd2, hdisj⟩ := hnd
    exact ⟨fun hmem => hdisj hmem (List.mem_cons_self _ _),
      (List.nodup_cons.mp hnd2).1⟩
  have hpre2 : List.Chain' (fun a b => step T a = b) (pre ++ [start]) := by
    refine List.chain'_append.mpr ⟨hpre, List.chain'_singleton _, ?_⟩
    intro a ha b hb
    simp at hb
    subst hb
    exact hbound1 a ha start (by simp)
  have hkey : List.Chain' (fun a b => step T a = b)
      ((start :: post) ++ (pre ++ [start])) := by
    refine List.chain'_append.mpr ⟨hsp3, hpre2, ?_⟩
    intro a ha b hb
    have haw : step T a = w := hbound2 a ha w (by simp)
    cases hp : pre with
    | nil =>
      subst hp
      simp at hb hhead
      subst hb
      rw [hhead]
      exact haw
    | cons z pre' =>
      subst hp
      simp at hb hhead
      subst hb
      rw [hhead]
      exact haw
  have hkey2 : List.Chain (fun a b => step T a = b) start ((post ++ pre) ++ [start]) := by
    have heq : (start :: post) ++ (pre ++ [start]) =
        start :: ((post ++ pre) ++ [start]) := by
      simp
    rw [heq] at hkey
    exact hkey
  rw [tourLinks]
  cases hpp : post ++ pre with
  | nil =>
    rw [hpp] at hkey2
    rw [List.nil_append] at hkey2
    cases hkey2 with
    | cons h1 _ => rw [h1, go_self]
  | cons y rest =>
    rw [hpp] at hkey2
    rw [List.cons_append] at hkey2
    cases hkey2 with
    | cons h1 h2 =>
      rw [h1]
      rw [go_emits rest T start y fuel ?hlen ?hmem h2]
      case hlen =>
        have hlen1 : (pre ++ start :: post).length = (post ++ pre).length + 1 := by
          simp
          omega
        rw [hpp] at hlen1
        simp at hlen1 hf
        omega
      case hmem =>
        intro hmem2
        rw [← hpp] at hmem2
        rcases List.mem_append.mp hmem2 with h | h
        · exact hndsp.2 h
        · exact hndsp.1 h

/-! ## Claim C1: Euler tour length -/

/-- C1 counterexample: for the tree parsed from `((B,(D,E)C)A,F,(H,I)G)R;`
(10 nodes), the Euler tour started at `R` is exactly the 18-entry sequence
the repository's own test expects (`RABACDCECARFRGHGIG`): the iterator stops
upon returning to the start link without emitting the start node again, so
the tour has `2*(N-1)` entries, not `2*(N-1)+1`, and it is not the 19-entry
sequence ending in a return to `R` stated by the claim. -/
theorem claim_C1_counterexample :
    eulertour exampleTree [] =
      ["R", "A", "B", "A", "C", "D", "C", "E", "C", "A", "R", "F", "R", "G",
       "H", "G", "I", "G"] ∧
    (eulertour exampleTree []).length = 18 ∧
    exampleTree.size = 10 ∧
    (eulertour exampleTree []).length ≠ 2 * (exampleTree.size - 1) + 1 ∧
    eulertour exampleTree [] ≠
      ["R", "A", "B", "A", "C", "D", "C", "E", "C", "A", "R", "F", "R", "G",
       "H", "G", "I", "G", "R"] := by
  refine ⟨rfl, rfl, rfl, by decide, by decide⟩

/-- C1 (amended): for every tree with `N ≥ 2` nodes, the Euler tour started
at any node `S` produces exactly `2*(N-1)` node entries, beginning at `S`;
the iterator stops upon returning to the start link instead of emitting `S`
once more (the single-node tree has no links to start from and is outside
the link model). -/
theorem claim_C1 (T : RTree) (p : List Nat) (h2 : 2 ≤ T.size)
    (hp : (childAt T p).isSome = true) :
    (eulertour T p).length = 2 * (T.size - 1) ∧
    (eulertour T p).head? = some (nameAt T p) := by
  obtain ⟨n, cs⟩ := T
  cases cs with
  | nil =>
    exfalso
    rw [RTree.size, Forest.sizeF] at h2
    omega
  | cons c cs' =>
    have hmem : startLink p ∈ eulerCycle (.node n (.cons c cs')) := by
      cases p with
      | nil =>
        refine List.mem_of_mem_head? ?_
        rw [cycle_head n c cs']
        rfl
      | cons j p' =>
        obtain ⟨t', ht'⟩ := Option.isSome_iff_exists.mp hp
        exact up_mem_cycle _ (j :: p') t' ht' (by simp)
    obtain ⟨pre, post, hdec⟩ := List.append_of_mem hmem
    have hch := chain_cycle n (.cons c cs')
    have hh := cycle_head n c cs'
    have hnd := cycle_nodup n (.cons c cs')
    have hlen := cycle_length n (.cons c cs')
    rw [hdec] at hch hh hnd hlen
    have hfuel : (pre ++ startLink p :: post).length ≤
        2 * (RTree.size (.node n (.cons c cs'))) + 1 := by
      rw [hlen, RTree.size]
      omega
    have htour := tour_eq (.node n (.cons c cs')) (.down [0]) (startLink p)
      pre post hch hh hnd (2 * RTree.size (.node n (.cons c cs'))) hfuel
    constructor
    · rw [eulertour, htour]
      simp only [List.length_map, List.length_cons, List.length_append]
      simp only [List.length_append, List.length_cons] at hlen
      rw [RTree.size]
      omega
    · rw [eulertour, htour, List.map_cons, List.head?_cons]
      cases p with
      | nil => rfl
      | cons j p' => rfl

/-- Witness for C1 at the example tree, started at node `H` (path `[2, 0]`). -/
theorem claim_C1_witness :
    (eulertour exampleTree [2, 0]).length = 2 * (exampleTree.size - 1) ∧
    (eulertour exampleTree [2, 0]).head? = some (nameAt exampleTree [2, 0]) :=
  claim_C1 exampleTree [2, 0] (by decide) (by decide)

end Genesis
